import Mathlib

/-!
Verification of the YAML language service core (scalar classifier, scalar
value parsing, AST normalization, diagnostics partitioning, multi-document
formatting, binary search / node-offset lookup) against its specification.
The embedding follows the TypeScript sources of the repository; external
JavaScript builtins (`parseInt`, `parseFloat`, string/array methods) are
modelled per their ECMAScript semantics; components whose implementation is
not part of the repository snapshot are modelled from the specification and
marked as such.
-/

namespace YamlLS

/-- Scalar type tags, mirroring `enum ScalarType { null, bool, int, float, string }`. -/
inductive ScalarType where
  | null
  | bool
  | int
  | float
  | string
deriving DecidableEq, Repr

/-- Model of an external `YAMLScalar` node: literal text (absent models a
`null`/`undefined` value field) plus quoting metadata and its span. -/
structure YAMLScalar where
  value : Option String
  doubleQuoted : Bool
  singleQuoted : Bool
  plainScalar : Bool
  startPosition : Nat
  endPosition : Nat
deriving DecidableEq, Repr

/-- Strip one leading `+` or `-` sign (shared shape of the classifier regexes). -/
def stripSign : List Char → List Char
  | '+' :: r => r
  | '-' :: r => r
  | l => l

/-- Octal digit, for the `0o[0-7]+` regex. -/
def isOctalDigit (c : Char) : Bool := '0' ≤ c && c ≤ '7'

/-- Hexadecimal digit, for the `0x[0-9a-fA-F]+` regex. -/
def isHexDigitC (c : Char) : Bool :=
  c.isDigit || ('a' ≤ c && c ≤ 'f') || ('A' ≤ c && c ≤ 'F')

/-- The regex `^[-+]?[0-9]+$` from `determineScalarType`. -/
def base10Match (s : String) : Bool :=
  let l := stripSign s.data
  !l.isEmpty && l.all Char.isDigit

/-- The regex `^0o[0-7]+$` from `determineScalarType`. -/
def base8Match (s : String) : Bool :=
  match s.data with
  | '0' :: 'o' :: r => !r.isEmpty && r.all isOctalDigit
  | _ => false

/-- The regex `^0x[0-9a-fA-F]+$` from `determineScalarType`. -/
def base16Match (s : String) : Bool :=
  match s.data with
  | '0' :: 'x' :: r => !r.isEmpty && r.all isHexDigitC
  | _ => false

/-- The optional-exponent tail `([eE][-+]?[0-9]+)?$` of the float regex. -/
def expTailMatch : List Char → Bool
  | [] => true
  | c :: r =>
    (c == 'e' || c == 'E') &&
      (let r' := stripSign r
       !r'.isEmpty && r'.all Char.isDigit)

/-- The sign-free part `(\.[0-9]+|[0-9]+(\.[0-9]*)?)([eE][-+]?[0-9]+)?$` of
the float regex. -/
def floatBodyMatch (l : List Char) : Bool :=
  match l with
  | '.' :: r =>
    !(r.takeWhile Char.isDigit).isEmpty && expTailMatch (r.dropWhile Char.isDigit)
  | l1 =>
    !(l1.takeWhile Char.isDigit).isEmpty &&
      (match l1.dropWhile Char.isDigit with
       | '.' :: r2 => expTailMatch (r2.dropWhile Char.isDigit)
       | rest => expTailMatch rest)

/-- The regex `^[-+]?(\.[0-9]+|[0-9]+(\.[0-9]*)?)([eE][-+]?[0-9]+)?$`
from `determineScalarType`. -/
def floatMatch (s : String) : Bool :=
  floatBodyMatch (stripSign s.data)

/-- Body of the infinity regex: exactly `.inf`, `.Inf` or `.INF`. -/
def infBody (l : List Char) : Bool :=
  l == ['.', 'i', 'n', 'f'] || l == ['.', 'I', 'n', 'f'] || l == ['.', 'I', 'N', 'F']

/-- The regex `^([-+])?(?:\.inf|\.Inf|\.INF)$` with its captured sign:
`some true` for a match with `-`, `some false` for a match with `+` or no
sign, `none` when the input does not match. -/
def infinitySign (s : String) : Option Bool :=
  match s.data with
  | '-' :: r => if infBody r then some true else none
  | '+' :: r => if infBody r then some false else none
  | l => if infBody l then some false else none

/-- Whether the infinity regex of `determineScalarType` matches. -/
def infinityMatch (s : String) : Bool := (infinitySign s).isSome

/-- `determineScalarType` from the parser source, on a possibly-absent scalar
node. The source reads `node.value` once and checks the `null` spelling list
before the `value == null` check; with `value : Option String` the two checks
are folded into one `match` (an absent value is in neither spelling list, so
both orders yield `null`). -/
def determineScalarType (node : Option YAMLScalar) : ScalarType :=
  match node with
  | none => .null
  | some n =>
    if n.doubleQuoted || (!n.plainScalar) || n.singleQuoted then .string
    else
      match n.value with
      | none => .null
      | some v =>
        if ["null", "Null", "NULL", "~"].contains v then .null
        else if ["true", "True", "TRUE", "false", "False", "FALSE"].contains v then .bool
        else if base10Match v || base8Match v || base16Match v then .int
        else if floatMatch v || infinityMatch v || [".nan", ".NaN", ".NAN"].contains v then .float
        else .string

/-- `parseYamlBoolean` from the parser source; a thrown string exception is
modelled as `Except.error`. -/
def parseYamlBoolean (input : String) : Except String Bool :=
  if ["true", "True", "TRUE"].contains input then .ok true
  else if ["false", "False", "FALSE"].contains input then .ok false
  else .error ("Invalid boolean \"" ++ input ++ "\"")

end YamlLS

namespace YamlLS

/-- Split off one leading sign; `true` means negative (ECMAScript numeric
literal scanning shared by `parseInt`/`parseFloat`). -/
def signSplit : List Char → Bool × List Char
  | '-' :: r => (true, r)
  | '+' :: r => (false, r)
  | l => (false, l)

/-- Numeric value of a digit character in bases up to 36 (ECMAScript). -/
def digitValue (c : Char) : Nat :=
  if c.isDigit then c.toNat - '0'.toNat
  else if 'a' ≤ c && c ≤ 'z' then c.toNat - 'a'.toNat + 10
  else if 'A' ≤ c && c ≤ 'Z' then c.toNat - 'A'.toNat + 10
  else 99

/-- Whether `c` is a digit of the given radix (ECMAScript `parseInt`). -/
def isRadixDigit (radix : Nat) (c : Char) : Bool := digitValue c < radix

/-- Accumulate digit characters into a natural number in the given radix. -/
def digitsToNat (radix : Nat) (l : List Char) : Nat :=
  l.foldl (fun a c => a * radix + digitValue c) 0

/-- Radix resolution of ECMAScript `parseInt` after sign stripping: an absent
radix is 10 unless a `0x`/`0X` prefix selects 16 (stripping it); an explicit
radix 16 also strips that prefix; any other explicit radix is used as-is. -/
def radixResolve (radix : Option Nat) (l : List Char) : Nat × List Char :=
  match radix with
  | some 16 =>
    match l with
    | '0' :: c :: r => if c == 'x' || c == 'X' then (16, r) else (16, l)
    | _ => (16, l)
  | some r => (r, l)
  | none =>
    match l with
    | '0' :: c :: r => if c == 'x' || c == 'X' then (16, r) else (10, l)
    | _ => (10, l)

/-- Model of the ECMAScript builtin `parseInt(string, radix?)`: skip leading
whitespace, one optional sign, resolve the radix, then read the longest digit
prefix; `none` models `NaN` (no digits). -/
def parseIntJS (s : String) (radix : Option Nat) : Option Int :=
  let l := s.data.dropWhile Char.isWhitespace
  let p := signSplit l
  let rl := radixResolve radix p.2
  let ds := rl.2.takeWhile (isRadixDigit rl.1)
  if ds.isEmpty then none
  else some (if p.1 then -(digitsToNat rl.1 ds : Int) else (digitsToNat rl.1 ds : Int))

/-- `safeParseYamlInteger` from the parser source: a `0o` prefix selects
explicit octal parsing of the remainder, otherwise default-radix `parseInt`. -/
def safeParseYamlInteger (input : String) : Option Int :=
  match input.data with
  | '0' :: 'o' :: rest => parseIntJS (String.mk rest) (some 8)
  | _ => parseIntJS input none

/-- `parseYamlInteger` from the parser source: fails (thrown string, modelled
as `Except.error`) exactly when `safeParseYamlInteger` yields `NaN`. -/
def parseYamlInteger (input : String) : Except String Int :=
  match safeParseYamlInteger input with
  | some n => .ok n
  | none => .error ("Invalid integer \"" ++ input ++ "\"")

/-- Result values of YAML float parsing: NaN, signed infinity, or a finite
value (represented exactly as a rational). -/
inductive YamlFloat where
  | nan
  | inf (neg : Bool)
  | finite (q : ℚ)
deriving DecidableEq, Repr

/-- Exponent denoted by the longest valid `[eE][-+]?[0-9]+` prefix of `l`
(0 when no valid exponent prefix is present), per ECMAScript `parseFloat`. -/
def expValue (l : List Char) : Int :=
  match l with
  | c :: r =>
    if c == 'e' || c == 'E' then
      let p := signSplit r
      let ds := p.2.takeWhile Char.isDigit
      if ds.isEmpty then 0
      else if p.1 then -(digitsToNat 10 ds : Int) else (digitsToNat 10 ds : Int)
    else 0
  | [] => 0

/-- Value of a decimal literal `intDs . fracDs` followed by an optional
exponent read from `rest`, with sign `neg`. -/
def decimalValue (neg : Bool) (intDs fracDs : List Char) (rest : List Char) : ℚ :=
  let mant : ℚ := (digitsToNat 10 intDs : ℚ) + (digitsToNat 10 fracDs : ℚ) / ((10 : ℚ) ^ fracDs.length)
  let v := mant * (10 : ℚ) ^ expValue rest
  if neg then -v else v

/-- The sign-free part of ECMAScript `parseFloat`: the longest prefix of `m`
that is `Infinity` or a decimal literal (`digits`, `digits.digits?`, or
`.digits`, each with an optional exponent); `none` models `NaN` (no valid
prefix). -/
def parseFloatBody (neg : Bool) (m : List Char) : Option YamlFloat :=
  if ['I', 'n', 'f', 'i', 'n', 'i', 't', 'y'].isPrefixOf m then
    some (.inf neg)
  else
    match m with
    | '.' :: r =>
      let ds := r.takeWhile Char.isDigit
      if ds.isEmpty then none
      else some (.finite (decimalValue neg [] ds (r.dropWhile Char.isDigit)))
    | l1 =>
      let ds := l1.takeWhile Char.isDigit
      if ds.isEmpty then none
      else
        match l1.dropWhile Char.isDigit with
        | '.' :: r2 =>
          some (.finite (decimalValue neg ds (r2.takeWhile Char.isDigit) (r2.dropWhile Char.isDigit)))
        | rest => some (.finite (decimalValue neg ds [] rest))

/-- Model of the ECMAScript builtin `parseFloat(string)`: skip leading
whitespace, one optional sign, then the longest `Infinity`-or-decimal
prefix. -/
def parseFloatJS (s : String) : Option YamlFloat :=
  let l := s.data.dropWhile Char.isWhitespace
  let p := signSplit l
  parseFloatBody p.1 p.2

/-- `parseYamlFloat` from the parser source: the `.nan` spellings map to NaN,
the three `.inf` spellings with optional sign map to signed infinity, anything
else falls back to `parseFloat`, failing (thrown string, modelled as
`Except.error`) exactly when the fallback yields `NaN`. -/
def parseYamlFloat (input : String) : Except String YamlFloat :=
  if [".nan", ".NaN", ".NAN"].contains input then .ok .nan
  else
    match infinitySign input with
    | some neg => .ok (.inf neg)
    | none =>
      match parseFloatJS input with
      | some v => .ok v
      | none => .error ("Invalid float \"" ++ input ++ "\"")

end YamlLS

namespace YamlLS

deriving instance DecidableEq for Except

/-- C3: a scalar whose quoting metadata marks it non-plain (double-quoted,
single-quoted, or otherwise not a plain scalar) always classifies as the
`string` type, regardless of its literal text. -/
theorem determineScalarType_quoted (n : YAMLScalar)
    (h : n.doubleQuoted = true ∨ n.singleQuoted = true ∨ n.plainScalar = false) :
    determineScalarType (some n) = ScalarType.string := by
  unfold determineScalarType
  rcases h with h | h | h <;> simp [h]

/-- C3 witness: the double-quoted scalar text `true` classifies as `string`,
not `bool`. -/
theorem determineScalarType_quoted_witness :
    determineScalarType (some ⟨some "true", true, false, false, 0, 6⟩) = ScalarType.string :=
  determineScalarType_quoted ⟨some "true", true, false, false, 0, 6⟩ (Or.inl rfl)

/-- C9: `parseYamlBoolean` returns `true` exactly on `true`/`True`/`TRUE`,
`false` exactly on `false`/`False`/`FALSE`, and a descriptive failure on every
other input, including `yes` and `no`. -/
theorem parseYamlBoolean_exact (input : String) :
    (parseYamlBoolean input = .ok true ↔ input ∈ ["true", "True", "TRUE"]) ∧
    (parseYamlBoolean input = .ok false ↔ input ∈ ["false", "False", "FALSE"]) ∧
    (input ∉ ["true", "True", "TRUE"] → input ∉ ["false", "False", "FALSE"] →
      parseYamlBoolean input = .error ("Invalid boolean \"" ++ input ++ "\"")) ∧
    parseYamlBoolean "yes" = .error "Invalid boolean \"yes\"" ∧
    parseYamlBoolean "no" = .error "Invalid boolean \"no\"" := by
  refine ⟨?_, ?_, ?_, rfl, rfl⟩ <;>
  · unfold parseYamlBoolean
    by_cases h1 : input ∈ ["true", "True", "TRUE"] <;>
      by_cases h2 : input ∈ ["false", "False", "FALSE"] <;>
        simp_all [List.elem_eq_mem, List.contains] <;>
        rcases h1 with rfl | rfl | rfl <;> simp_all

/-- C9 witness: `parseYamlBoolean` at the concrete inputs `True` and `FALSE`. -/
theorem parseYamlBoolean_exact_witness :
    parseYamlBoolean "True" = .ok true ∧ parseYamlBoolean "FALSE" = .ok false :=
  ⟨(parseYamlBoolean_exact "True").1.mpr (by decide),
   (parseYamlBoolean_exact "FALSE").2.1.mpr (by decide)⟩

/-- C7 counterexample: the plain scalar text `NUll` is case-insensitively
`null` (and `tRue` case-insensitively `true`), yet `determineScalarType`
classifies both as `string`: only the exact spellings, not arbitrary letter
case, trigger the `null` and `bool` types. -/
theorem determineScalarType_not_caseInsensitive :
    determineScalarType (some ⟨some "NUll", false, false, true, 0, 4⟩) = ScalarType.string ∧
    determineScalarType (some ⟨some "tRue", false, false, true, 0, 4⟩) = ScalarType.string ∧
    ScalarType.string ≠ ScalarType.null ∧ ScalarType.string ≠ ScalarType.bool :=
  ⟨rfl, rfl, by decide, by decide⟩

/-- C7 amended: for a plain (unquoted) scalar with text `v`,
`determineScalarType` returns `null` when `v` is one of the exact spellings
`null`/`Null`/`NULL`/`~`, and `bool` when `v` is one of the exact spellings
`true`/`True`/`TRUE`/`false`/`False`/`FALSE`. -/
theorem determineScalarType_null_bool_spellings (n : YAMLScalar)
    (hq : n.doubleQuoted = false) (hs : n.singleQuoted = false) (hp : n.plainScalar = true)
    (v : String) (hv : n.value = some v) :
    (v ∈ ["null", "Null", "NULL", "~"] → determineScalarType (some n) = ScalarType.null) ∧
    (v ∈ ["true", "True", "TRUE", "false", "False", "FALSE"] →
      determineScalarType (some n) = ScalarType.bool) := by
  unfold determineScalarType
  simp only [hq, hs, hp, hv]
  constructor
  · intro hm; fin_cases hm <;> simp
  · intro hm; fin_cases hm <;> simp

/-- C7 amended witness: the plain scalars `NULL`, `~` and `False` at concrete
inputs. -/
theorem determineScalarType_null_bool_spellings_witness :
    determineScalarType (some ⟨some "~", false, false, true, 0, 1⟩) = ScalarType.null ∧
    determineScalarType (some ⟨some "False", false, false, true, 0, 5⟩) = ScalarType.bool :=
  ⟨(determineScalarType_null_bool_spellings ⟨some "~", false, false, true, 0, 1⟩
      rfl rfl rfl "~" rfl).1 (by decide),
   (determineScalarType_null_bool_spellings ⟨some "False", false, false, true, 0, 5⟩
      rfl rfl rfl "False" rfl).2 (by decide)⟩

/-- C8 counterexample: `.iNf` and `-.INf` are `.inf` spellings in mixed letter
case, but `parseYamlFloat` signals a failure on them instead of returning an
infinity: only the three spellings `.inf`/`.Inf`/`.INF` are special-cased. -/
theorem parseYamlFloat_mixedCase_inf :
    parseYamlFloat ".iNf" = .error "Invalid float \".iNf\"" ∧
    parseYamlFloat "-.INf" = .error "Invalid float \"-.INf\"" :=
  ⟨rfl, rfl⟩

/-- C8 amended: `parseYamlFloat` returns NaN for `.nan`/`.NaN`/`.NAN`, a
signed infinity exactly for the optionally signed spellings
`.inf`/`.Inf`/`.INF` (not arbitrary letter case), and otherwise falls back to
standard float parsing, failing with a descriptive message exactly when the
fallback yields no number. -/
theorem parseYamlFloat_spec (s : String) :
    (s ∈ [".nan", ".NaN", ".NAN"] → parseYamlFloat s = .ok .nan) ∧
    ((∃ neg, infinitySign s = some neg) ↔
      s ∈ ["-.inf", "-.Inf", "-.INF", "+.inf", "+.Inf", "+.INF", ".inf", ".Inf", ".INF"]) ∧
    (s ∈ ["-.inf", "-.Inf", "-.INF"] → parseYamlFloat s = .ok (.inf true)) ∧
    (s ∈ [".inf", ".Inf", ".INF", "+.inf", "+.Inf", "+.INF"] → parseYamlFloat s = .ok (.inf false)) ∧
    (s ∉ [".nan", ".NaN", ".NAN"] → infinitySign s = none →
      parseYamlFloat s =
        match parseFloatJS s with
        | some v => .ok v
        | none => .error ("Invalid float \"" ++ s ++ "\"")) := by
  refine ⟨?_, ⟨?_, ?_⟩, ?_, ?_, ?_⟩
  · intro hm; fin_cases hm <;> rfl
  · obtain ⟨data⟩ := s
    intro ⟨neg, h⟩
    unfold infinitySign at h
    split at h <;>
    · rename_i heq
      split at h
      · rename_i hb
        simp only [infBody, Bool.or_eq_true, beq_iff_eq] at hb
        rcases hb with (rfl | rfl) | rfl <;>
          first
          | (simp only at heq; subst heq; decide)
          | decide
      · exact absurd h (by simp)
  · intro hm
    fin_cases hm <;> exact ⟨_, rfl⟩
  · intro hm; fin_cases hm <;> rfl
  · intro hm; fin_cases hm <;> rfl
  · intro h1 h2
    unfold parseYamlFloat
    rw [if_neg (by simpa [List.contains, List.elem_eq_mem] using h1), h2]

/-- C8 amended witness: `parseYamlFloat` at the concrete inputs `.NaN`,
`-.inf`, `.INF` and the plain number `2.5` (fallback success). -/
theorem parseYamlFloat_spec_witness :
    parseYamlFloat ".NaN" = .ok .nan ∧
    parseYamlFloat "-.inf" = .ok (.inf true) ∧
    parseYamlFloat ".INF" = .ok (.inf false) ∧
    parseYamlFloat "2.5" =
      (match parseFloatJS "2.5" with
       | some v => .ok v
       | none => .error ("Invalid float \"" ++ "2.5" ++ "\"")) :=
  ⟨(parseYamlFloat_spec ".NaN").1 (by decide),
   (parseYamlFloat_spec "-.inf").2.2.1 (by decide),
   (parseYamlFloat_spec ".INF").2.2.2.1 (by decide),
   (parseYamlFloat_spec "2.5").2.2.2.2 (by decide) (by decide)⟩

end YamlLS

namespace YamlLS

/-- Raw node graph of the external yaml-ast-parser, as consumed by
`recursivelyBuildAst`: mappings of a `map` are `mapping` nodes, a `mapping`
holds a scalar key and an optional value subtree, and anchor/include
references carry only their span (the normalizer builds nothing for them). -/
inductive YamlNode where
  | map (startPosition endPosition : Nat) (mappings : List YamlNode)
  | mapping (startPosition endPosition : Nat) (key : YAMLScalar) (value : Option YamlNode)
  | seq (startPosition endPosition : Nat) (items : List YamlNode)
  | scalar (s : YAMLScalar)
  | anchorRef (startPosition endPosition : Nat)
  | includeRef (startPosition endPosition : Nat)
deriving Repr

/-- `startPosition` of a raw node. -/
def YamlNode.startPosition : YamlNode → Nat
  | .map s _ _ => s
  | .mapping s _ _ _ => s
  | .seq s _ _ => s
  | .scalar sc => sc.startPosition
  | .anchorRef s _ => s
  | .includeRef s _ => s

/-- `endPosition` of a raw node. -/
def YamlNode.endPosition : YamlNode → Nat
  | .map _ e _ => e
  | .mapping _ e _ _ => e
  | .seq _ e _ => e
  | .scalar sc => sc.endPosition
  | .anchorRef _ e => e
  | .includeRef _ e => e

/-- The `location` field of a normalized node: a property name, an array
index, or JavaScript `null` (the initial value, and the value used when a key
has no text). -/
inductive Location where
  | nullLoc
  | strLoc (s : String)
  | idxLoc (n : Nat)
deriving DecidableEq, Repr

/-- The location denoted by a possibly-absent key text (JavaScript `null`
propagates as-is). -/
def locationOf : Option String → Location
  | some s => .strLoc s
  | none => .nullLoc

/-- Value carried by a normalized `number` node. -/
inductive NumValue where
  | intVal (n : Int)
  | floatVal (f : YamlFloat)
deriving DecidableEq, Repr

/-- Normalized AST nodes. Object identity of the mutable JavaScript nodes is
modelled by a per-node `id` drawn from a counter threaded through the build;
the `parentId` field records the id of the node object that was passed as the
`parent` constructor argument (`none` models a `null`/absent parent). -/
inductive ASTNode where
  | objectN (parentId : Option Nat) (id : Nat) (location : Location)
      (start stop : Nat) (properties : List ASTNode)
  | arrayN (parentId : Option Nat) (id : Nat) (location : Location)
      (start stop : Nat) (items : List ASTNode)
  | propertyN (parentId : Option Nat) (id : Nat) (location : Location)
      (start stop : Nat) (key : ASTNode) (value : Option ASTNode)
  | stringN (parentId : Option Nat) (id : Nat) (location : Location)
      (isKey : Bool) (start stop : Nat) (value : Option String)
  | numberN (parentId : Option Nat) (id : Nat) (location : Location)
      (start stop : Nat) (value : NumValue) (isInteger : Bool)
  | boolN (parentId : Option Nat) (id : Nat) (location : Location)
      (start stop : Nat) (value : Bool)
  | nullN (parentId : Option Nat) (id : Nat) (location : Location)
      (start stop : Nat)
deriving Repr

/-- The `parent` back-reference of a normalized node (as a node id). -/
def ASTNode.parentId : ASTNode → Option Nat
  | .objectN p _ _ _ _ _ => p
  | .arrayN p _ _ _ _ _ => p
  | .propertyN p _ _ _ _ _ _ => p
  | .stringN p _ _ _ _ _ _ => p
  | .numberN p _ _ _ _ _ _ => p
  | .boolN p _ _ _ _ _ => p
  | .nullN p _ _ _ _ => p

/-- The identity of a normalized node. -/
def ASTNode.nodeId : ASTNode → Nat
  | .objectN _ i _ _ _ _ => i
  | .arrayN _ i _ _ _ _ => i
  | .propertyN _ i _ _ _ _ _ => i
  | .stringN _ i _ _ _ _ _ => i
  | .numberN _ i _ _ _ _ _ => i
  | .boolN _ i _ _ _ _ => i
  | .nullN _ i _ _ _ => i

/-- Overwrite the `location` field (the `node.location = ...` assignments the
container performs after construction). -/
def ASTNode.setLocation : ASTNode → Location → ASTNode
  | .objectN p i _ s e ps, loc => .objectN p i loc s e ps
  | .arrayN p i _ s e its, loc => .arrayN p i loc s e its
  | .propertyN p i _ s e k v, loc => .propertyN p i loc s e k v
  | .stringN p i _ ik s e v, loc => .stringN p i loc ik s e v
  | .numberN p i _ s e v ii, loc => .numberN p i loc s e v ii
  | .boolN p i _ s e v, loc => .boolN p i loc s e v
  | .nullN p i _ s e, loc => .nullN p i loc s e

/-- The `value` of a `property` node (`none` for every other kind). -/
def ASTNode.propValue : ASTNode → Option ASTNode
  | .propertyN _ _ _ _ _ _ v => v
  | _ => none

/-- The JavaScript `TypeError` raised by `valueNode.location = ...` (mapping
case) or `itemNode.location = count++` (sequence case) when the recursive
build returned `undefined` for a present value/item. -/
def typeErrorUndefinedLocation : String := "TypeError: cannot set location of undefined"

/-- `parseYamlBoolean(value)` where `value` came from a scalar node and may be
JavaScript `null`: the membership tests fail and the thrown template
stringifies `null`. -/
def parseYamlBooleanOpt : Option String → Except String Bool
  | some s => parseYamlBoolean s
  | none => .error "Invalid boolean \"null\""

/-- `parseYamlInteger(value)` with a possibly-`null` argument: `parseInt`
coerces `null` to the string `"null"`. -/
def parseYamlIntegerOpt : Option String → Except String Int
  | some s => parseYamlInteger s
  | none => parseYamlInteger "null"

/-- `parseYamlFloat(value)` with a possibly-`null` argument: the regexes and
`parseFloat` coerce `null` to the string `"null"`. -/
def parseYamlFloatOpt : Option String → Except String YamlFloat
  | some s => parseYamlFloat s
  | none => parseYamlFloat "null"

mutual

/-- `recursivelyBuildAst` from the parser source. `parent` is the id of the
in-progress parent node (`none` for the root call), `ctr` the fresh-id
counter; a thrown JavaScript exception is modelled as `Except.error`. -/
def recursivelyBuildAst (parent : Option Nat) (node : Option YamlNode) (ctr : Nat) :
    Except String (Option ASTNode × Nat) :=
  match node with
  | none => .ok (none, ctr)
  | some (.map s e mappings) =>
    match buildProperties ctr mappings (ctr + 1) with
    | .error msg => .error msg
    | .ok (props, c2) => .ok (some (.objectN parent ctr .nullLoc s e props), c2)
  | some (.mapping s e key value) =>
    -- keyNode = new StringASTNode(null, null, true, ...); keyNode.value = key.value;
    -- result = new PropertyASTNode(parent, keyNode): the external constructor sets
    -- result.start = key.start, key.parent = result, key.location = key.value;
    -- then result.end = instance.endPosition.
    let kid := ctr
    let pid := ctr + 1
    let keyNode := ASTNode.stringN (some pid) kid (locationOf key.value) true
      key.startPosition key.endPosition key.value
    match value with
    | some v =>
      match recursivelyBuildAst (some pid) (some v) (ctr + 2) with
      | .error msg => .error msg
      | .ok (none, _) => .error typeErrorUndefinedLocation
      | .ok (some vn, c2) =>
        .ok (some (.propertyN parent pid .nullLoc key.startPosition e keyNode
          (some (vn.setLocation (locationOf key.value)))), c2)
    | none =>
      -- new NullASTNode(parent, key.value, instance.startPosition, instance.endPosition):
      -- note the constructor receives `parent`, not `result`.
      let vn := ASTNode.nullN parent (ctr + 2) (locationOf key.value) s e
      .ok (some (.propertyN parent pid .nullLoc key.startPosition e keyNode
        (some (vn.setLocation (locationOf key.value)))), ctr + 3)
  | some (.seq s e items) =>
    match buildItems ctr items 0 (ctr + 1) with
    | .error msg => .error msg
    | .ok (its, c2) => .ok (some (.arrayN parent ctr .nullLoc s e its), c2)
  | some (.scalar sc) =>
    match determineScalarType (some sc) with
    | .null => .ok (some (.nullN parent ctr .nullLoc sc.startPosition sc.endPosition), ctr + 1)
    | .bool =>
      match parseYamlBooleanOpt sc.value with
      | .error msg => .error msg
      | .ok b => .ok (some (.boolN parent ctr .nullLoc sc.startPosition sc.endPosition b), ctr + 1)
    | .int =>
      match parseYamlIntegerOpt sc.value with
      | .error msg => .error msg
      | .ok n =>
        .ok (some (.numberN parent ctr .nullLoc sc.startPosition sc.endPosition (.intVal n) true),
          ctr + 1)
    | .float =>
      match parseYamlFloatOpt sc.value with
      | .error msg => .error msg
      | .ok f =>
        .ok (some (.numberN parent ctr .nullLoc sc.startPosition sc.endPosition (.floatVal f) false),
          ctr + 1)
    | .string =>
      .ok (some (.stringN parent ctr .nullLoc false sc.startPosition sc.endPosition sc.value),
        ctr + 1)
  | some (.anchorRef _ _) => .ok (none, ctr)
  | some (.includeRef _ _) => .ok (none, ctr)
termination_by sizeOf node
decreasing_by all_goals (simp_wf; omega)

/-- The `for (const mapping of instance.mappings)` loop of the `MAP` case:
build each entry with the object (id `oid`) as parent and `addProperty` it;
the external `addProperty` ignores an `undefined` argument. -/
def buildProperties (oid : Nat) (mappings : List YamlNode) (ctr : Nat) :
    Except String (List ASTNode × Nat) :=
  match mappings with
  | [] => .ok ([], ctr)
  | m :: rest =>
    match recursivelyBuildAst (some oid) (some m) ctr with
    | .error msg => .error msg
    | .ok (r, c2) =>
      match buildProperties oid rest c2 with
      | .error msg => .error msg
      | .ok (rs, c3) =>
        match r with
        | some p => .ok (p :: rs, c3)
        | none => .ok (rs, c3)
termination_by sizeOf mappings
decreasing_by
  all_goals simp_wf
  all_goals have hpos : 0 < sizeOf rest := by cases rest <;> simp_arith
  all_goals omega

/-- The `for (const item of instance.items)` loop of the `SEQ` case: build
each item with the array (id `aid`) as parent, then `itemNode.location =
count++` — which raises a `TypeError` when the build yielded `undefined`. -/
def buildItems (aid : Nat) (items : List YamlNode) (count : Nat) (ctr : Nat) :
    Except String (List ASTNode × Nat) :=
  match items with
  | [] => .ok ([], ctr)
  | it :: rest =>
    match recursivelyBuildAst (some aid) (some it) ctr with
    | .error msg => .error msg
    | .ok (none, _) => .error typeErrorUndefinedLocation
    | .ok (some n, c2) =>
      match buildItems aid rest (count + 1) c2 with
      | .error msg => .error msg
      | .ok (ns, c3) => .ok ((n.setLocation (.idxLoc count)) :: ns, c3)
termination_by sizeOf items
decreasing_by
  all_goals simp_wf
  all_goals try (have hpos : 0 < sizeOf rest := by cases rest <;> simp_arith)
  all_goals omega

end

/-- A raw diagnostic (`YAMLException`) of the external parser: its `reason`,
`message`, and the `mark.position` / `mark.buffer.length` used by
`convertError`. -/
structure YamlError where
  reason : String
  message : String
  markPosition : Int
  markBufferLength : Nat
deriving DecidableEq, Repr

/-- A converted diagnostic on the document (message plus `[start, stop)`
span). -/
structure ParseError where
  message : String
  start : Int
  stop : Int
deriving DecidableEq, Repr

/-- `convertError` from the parser source: the buffer carries a trailing
`\n\0` sentinel, so the usable length is `buffer.length - 2`; the start is
clamped to `bufferLength - 1` and the end is `bufferLength` (JavaScript
number arithmetic, hence `Int`). -/
def convertError (e : YamlError) : ParseError :=
  { message := e.message
  , start := min e.markPosition ((e.markBufferLength : Int) - 2 - 1)
  , stop := (e.markBufferLength : Int) - 2 }

/-- The result `JSONDocument` of `parse`: the normalized root (possibly
absent) plus the partitioned diagnostics. -/
structure JSONDocument where
  root : Option ASTNode
  errors : List ParseError
  warnings : List ParseError
deriving Repr

/-- The magic diagnostic reason that demotes an error to a warning. -/
def duplicateKeyReason : String := "duplicate key"

/-- `parse` from the parser source, over the external parser's output (the
document node together with its raw `errors` list): build the tree, push a
root-missing error when nothing was built, then partition the raw diagnostics
by reason into errors and warnings. A thrown exception is `Except.error`. -/
def parse (yamlDoc : YamlNode) (yamlErrors : List YamlError) : Except String JSONDocument :=
  match recursivelyBuildAst none (some yamlDoc) 0 with
  | .error msg => .error msg
  | .ok (root, _) =>
    let baseErrors : List ParseError :=
      match root with
      | none => [{ message := "Expected a YAML object, array or literal"
                 , start := (yamlDoc.startPosition : Int)
                 , stop := (yamlDoc.endPosition : Int) }]
      | some _ => []
    let errs := (yamlErrors.filter (fun e => e.reason != duplicateKeyReason)).map convertError
    let warns := (yamlErrors.filter (fun e => e.reason == duplicateKeyReason)).map convertError
    .ok { root := root, errors := baseErrors ++ errs, warnings := warns }

end YamlLS
namespace YamlLS

theorem digit_toNat {c : Char} (h : c.isDigit = true) : 48 ≤ c.toNat ∧ c.toNat ≤ 57 := by
  simp only [Char.isDigit, Bool.and_eq_true, decide_eq_true_eq] at h
  exact ⟨h.1, h.2⟩

theorem digit_of_toNat {c : Char} (h1 : 48 ≤ c.toNat) (h2 : c.toNat ≤ 57) : c.isDigit = true := by
  simp only [Char.isDigit, Bool.and_eq_true, decide_eq_true_eq]
  exact ⟨h1, h2⟩

theorem octal_toNat {c : Char} (h : isOctalDigit c = true) : 48 ≤ c.toNat ∧ c.toNat ≤ 55 := by
  simp only [isOctalDigit, Bool.and_eq_true, decide_eq_true_eq] at h
  exact ⟨h.1, h.2⟩

theorem hex_toNat {c : Char} (h : isHexDigitC c = true) :
    ((48 ≤ c.toNat ∧ c.toNat ≤ 57) ∨ (97 ≤ c.toNat ∧ c.toNat ≤ 102)) ∨
      (65 ≤ c.toNat ∧ c.toNat ≤ 70) := by
  simp only [isHexDigitC, Char.isDigit, Bool.or_eq_true, Bool.and_eq_true,
    decide_eq_true_eq] at h
  rcases h with (⟨a, b⟩ | ⟨a, b⟩) | ⟨a, b⟩
  · exact Or.inl (Or.inl ⟨a, b⟩)
  · exact Or.inl (Or.inr ⟨a, b⟩)
  · exact Or.inr ⟨a, b⟩

theorem char_ne_of_toNat {c d : Char} (h : c.toNat ≠ d.toNat) : c ≠ d :=
  fun he => h (congrArg Char.toNat he)

theorem notWS_of_toNat {c : Char} (h : 33 ≤ c.toNat) : c.isWhitespace = false := by
  have h1 : c ≠ ' ' := char_ne_of_toNat (by rw [show (' ').toNat = 32 from rfl]; omega)
  have h2 : c ≠ '\t' := char_ne_of_toNat (by rw [show ('\t').toNat = 9 from rfl]; omega)
  have h3 : c ≠ '\r' := char_ne_of_toNat (by rw [show ('\r').toNat = 13 from rfl]; omega)
  have h4 : c ≠ '\n' := char_ne_of_toNat (by rw [show ('\n').toNat = 10 from rfl]; omega)
  simp [Char.isWhitespace, h1, h2, h3, h4]

theorem takeWhile_all {p : Char → Bool} {l : List Char} (h : ∀ x ∈ l, p x = true) :
    l.takeWhile p = l := by
  induction l with
  | nil => rfl
  | cons a t ih => simp [List.takeWhile_cons, h a (by simp), ih (fun x hx => h x (by simp [hx]))]

theorem radix10_of_digit {c : Char} (h : c.isDigit = true) : isRadixDigit 10 c = true := by
  obtain ⟨h1, h2⟩ := digit_toNat h
  simp [isRadixDigit, digitValue, h]; omega

theorem radix8_of_octal {c : Char} (h : isOctalDigit c = true) : isRadixDigit 8 c = true := by
  obtain ⟨h1, h2⟩ := octal_toNat h
  have hd : c.isDigit = true := digit_of_toNat h1 (by omega)
  simp [isRadixDigit, digitValue, hd]; omega

theorem radix16_of_hex {c : Char} (h : isHexDigitC c = true) : isRadixDigit 16 c = true := by
  rcases hex_toNat h with (⟨h1, h2⟩ | ⟨h1, h2⟩) | ⟨h1, h2⟩
  · have hd : c.isDigit = true := digit_of_toNat h1 h2
    simp [isRadixDigit, digitValue, hd]; omega
  · have hd : c.isDigit = false := by
      rcases hb : c.isDigit with _ | _
      · rfl
      · obtain ⟨a, b⟩ := digit_toNat hb; omega
    have hl1 : ('a' ≤ c) := by show (97 : Nat) ≤ c.toNat; omega
    have hl2 : (c ≤ 'z') := by show c.toNat ≤ (122 : Nat); omega
    simp [isRadixDigit, digitValue, hd, hl1, hl2]
    omega
  · have hd : c.isDigit = false := by
      rcases hb : c.isDigit with _ | _
      · rfl
      · obtain ⟨a, b⟩ := digit_toNat hb; omega
    have hlow : ¬('a' ≤ c) := by
      intro ha
      have : (97 : Nat) ≤ c.toNat := ha
      omega
    have hup1 : ('A' ≤ c) := by show (65 : Nat) ≤ c.toNat; omega
    have hup2 : (c ≤ 'Z') := by show c.toNat ≤ (90 : Nat); omega
    simp [isRadixDigit, digitValue, hd, hlow, hup1, hup2]
    omega

theorem digit_ne_minus {c : Char} (h : c.isDigit = true) : c ≠ '-' :=
  char_ne_of_toNat (by rw [show ('-').toNat = 45 from rfl]; have := digit_toNat h; omega)

theorem digit_ne_plus {c : Char} (h : c.isDigit = true) : c ≠ '+' :=
  char_ne_of_toNat (by rw [show ('+').toNat = 43 from rfl]; have := digit_toNat h; omega)

theorem digit_notWS {c : Char} (h : c.isDigit = true) : c.isWhitespace = false :=
  notWS_of_toNat (by have := digit_toNat h; omega)

theorem digit_beq_x {c : Char} (h : c.isDigit = true) : (c == 'x' || c == 'X') = false := by
  have h1 : c ≠ 'x' := char_ne_of_toNat
    (by rw [show ('x').toNat = 120 from rfl]; have := digit_toNat h; omega)
  have h2 : c ≠ 'X' := char_ne_of_toNat
    (by rw [show ('X').toNat = 88 from rfl]; have := digit_toNat h; omega)
  simp [h1, h2]

theorem stripSign_other {c : Char} {r : List Char} (h1 : c ≠ '-') (h2 : c ≠ '+') :
    stripSign (c :: r) = c :: r := by
  unfold stripSign
  split
  · rename_i heq; injection heq with hc _; simp_all
  · rename_i heq; injection heq with hc _; simp_all
  · rfl

theorem signSplit_other {c : Char} {r : List Char} (h1 : c ≠ '-') (h2 : c ≠ '+') :
    signSplit (c :: r) = (false, c :: r) := by
  unfold signSplit
  split
  · rename_i heq; injection heq with hc _; simp_all
  · rename_i heq; injection heq with hc _; simp_all
  · rfl

theorem dropWhile_notWS {c : Char} {r : List Char} (h : c.isWhitespace = false) :
    List.dropWhile Char.isWhitespace (c :: r) = c :: r := by
  simp [List.dropWhile_cons, h]

theorem radixResolve_digits {l : List Char} (hall : ∀ x ∈ l, x.isDigit = true) :
    radixResolve none l = (10, l) := by
  show (match l with
    | '0' :: c :: r => if c == 'x' || c == 'X' then (16, r) else (10, l)
    | _ => (10, l)) = (10, l)
  split
  · rename_i d r
    rw [digit_beq_x (hall d (by simp))]
    simp
  · rfl

theorem radixResolve_some8 (l : List Char) : radixResolve (some 8) l = (8, l) := rfl

theorem radixResolve_hex (r : List Char) : radixResolve none ('0' :: 'x' :: r) = (16, r) := rfl

end YamlLS
namespace YamlLS

theorem parseIntJS_base10 {v : String} (h : base10Match v = true) :
    ∃ n, parseIntJS v none = some n := by
  unfold base10Match at h
  simp only [Bool.and_eq_true, Bool.not_eq_true', List.all_eq_true] at h
  obtain ⟨hne, hall⟩ := h
  rcases hdata : v.data with _ | ⟨c, rest⟩
  · rw [hdata] at hne; simp [stripSign] at hne
  · rw [hdata] at hne hall
    unfold parseIntJS
    rw [hdata]
    by_cases hcm : c = '-'
    · subst hcm
      simp only [stripSign] at hne hall
      rcases rest with _ | ⟨d, r2⟩
      · simp at hne
      · rw [dropWhile_notWS (by decide)]
        simp only [signSplit]
        rw [radixResolve_digits hall]
        rw [takeWhile_all (fun x hx => radix10_of_digit (hall x hx))]
        simp
    · by_cases hcp : c = '+'
      · subst hcp
        simp only [stripSign] at hne hall
        rcases rest with _ | ⟨d, r2⟩
        · simp at hne
        · rw [dropWhile_notWS (by decide)]
          simp only [signSplit]
          rw [radixResolve_digits hall]
          rw [takeWhile_all (fun x hx => radix10_of_digit (hall x hx))]
          simp
      · rw [stripSign_other hcm hcp] at hne hall
        have hcd : c.isDigit = true := hall c (by simp)
        simp only [dropWhile_notWS (digit_notWS hcd), signSplit_other hcm hcp,
          radixResolve_digits hall,
          takeWhile_all (fun x hx => radix10_of_digit (hall x hx))]
        simp

theorem parseIntJS_base8 {v : String} (h : base8Match v = true) :
    ∃ n, safeParseYamlInteger v = some n := by
  unfold base8Match at h
  rcases hdata : v.data with _ | ⟨c, rest⟩
  · rw [hdata] at h; simp at h
  · rw [hdata] at h
    unfold safeParseYamlInteger
    rw [hdata]
    rcases rest with _ | ⟨c2, r⟩
    · simp at h
    · -- h only survives when c = '0' and c2 = 'o'
      by_cases hc : c = '0'
      · subst hc
        by_cases hc2 : c2 = 'o'
        · subst hc2
          simp only [Bool.and_eq_true, Bool.not_eq_true', List.all_eq_true] at h
          obtain ⟨hne, hall⟩ := h
          rcases r with _ | ⟨d, r2⟩
          · simp at hne
          · show ∃ n, parseIntJS (String.mk (d :: r2)) (some 8) = some n
            unfold parseIntJS
            show ∃ n,
              (let l := List.dropWhile Char.isWhitespace (d :: r2)
               let p := signSplit l
               let rl := radixResolve (some 8) p.2
               let ds := rl.2.takeWhile (isRadixDigit rl.1)
               if ds.isEmpty then none
               else some (if p.1 then -(digitsToNat rl.1 ds : Int) else (digitsToNat rl.1 ds : Int))) = some n
            have hd : isOctalDigit d = true := hall d (by simp)
            have hdd : d.isDigit = true := by
              obtain ⟨a, b⟩ := octal_toNat hd
              exact digit_of_toNat a (by omega)
            simp only [dropWhile_notWS (digit_notWS hdd),
              signSplit_other (digit_ne_minus hdd) (digit_ne_plus hdd), radixResolve_some8,
              takeWhile_all (fun x hx => radix8_of_octal (hall x hx))]
            simp
        · exfalso
          revert h
          show (match ('0' : Char) :: c2 :: r with
            | '0' :: 'o' :: rx => !rx.isEmpty && rx.all isOctalDigit
            | _ => false) = true → False
          split
          · rename_i heq
            injection heq with _ htail
            injection htail with hc2' _
            exact fun _ => hc2 hc2'
          · simp
      · exfalso
        revert h
        show (match c :: c2 :: r with
          | '0' :: 'o' :: rx => !rx.isEmpty && rx.all isOctalDigit
          | _ => false) = true → False
        split
        · rename_i heq
          injection heq with hc' _
          exact fun _ => hc hc'
        · simp

end YamlLS
namespace YamlLS

theorem parseIntJS_base16 {v : String} (h : base16Match v = true) :
    ∃ n, safeParseYamlInteger v = some n := by
  unfold base16Match at h
  rcases hdata : v.data with _ | ⟨c, rest⟩
  · rw [hdata] at h; simp at h
  · rw [hdata] at h
    unfold safeParseYamlInteger
    rw [hdata]
    rcases rest with _ | ⟨c2, r⟩
    · simp at h
    · by_cases hc : c = '0'
      · subst hc
        by_cases hc2 : c2 = 'x'
        · subst hc2
          simp only [Bool.and_eq_true, Bool.not_eq_true', List.all_eq_true] at h
          obtain ⟨hne, hall⟩ := h
          have hstep : (match ('0' : Char) :: 'x' :: r with
              | '0' :: 'o' :: rest => parseIntJS (String.mk rest) (some 8)
              | _ => parseIntJS v none) = parseIntJS v none := by
            split
            · rename_i heq
              injection heq with _ htail
              injection htail with hbad _
              exact absurd hbad (by decide)
            · rfl
          rw [hstep]
          unfold parseIntJS
          rw [hdata]
          simp only [dropWhile_notWS (show ('0' : Char).isWhitespace = false by decide),
            signSplit_other (show ('0' : Char) ≠ '-' by decide)
              (show ('0' : Char) ≠ '+' by decide),
            radixResolve_hex,
            takeWhile_all (fun x hx => radix16_of_hex (hall x hx))]
          rcases r with _ | ⟨d, r2⟩
          · simp at hne
          · simp
        · exfalso
          revert h
          show (match ('0' : Char) :: c2 :: r with
            | '0' :: 'x' :: rx => !rx.isEmpty && rx.all isHexDigitC
            | _ => false) = true → False
          split
          · rename_i heq
            injection heq with _ htail
            injection htail with hc2' _
            exact fun _ => hc2 hc2'
          · simp
      · exfalso
        revert h
        show (match c :: c2 :: r with
          | '0' :: 'x' :: rx => !rx.isEmpty && rx.all isHexDigitC
          | _ => false) = true → False
        split
        · rename_i heq
          injection heq with hc' _
          exact fun _ => hc hc'
        · simp

theorem safeParse_base10 {v : String} (h : base10Match v = true) :
    ∃ n, safeParseYamlInteger v = some n := by
  obtain ⟨n, hn⟩ := parseIntJS_base10 h
  unfold safeParseYamlInteger
  split
  · rename_i rest heq
    exfalso
    unfold base10Match at h
    rw [heq] at h
    rw [stripSign_other (by decide) (by decide)] at h
    simp only [Bool.and_eq_true, List.all_eq_true] at h
    have := h.2 'o' (by simp)
    exact absurd this (by decide)
  · exact ⟨n, hn⟩

end YamlLS
namespace YamlLS

theorem isPrefixOf_infinity_false {c : Char} {m : List Char} (h : c ≠ 'I') :
    (['I', 'n', 'f', 'i', 'n', 'i', 't', 'y'].isPrefixOf (c :: m)) = false := by
  have hb : ('I' == c) = false := by
    simp only [beq_eq_false_iff_ne, ne_eq]
    exact fun he => h he.symm
  simp [List.isPrefixOf, hb]

theorem digit_ne_I {c : Char} (h : c.isDigit = true) : c ≠ 'I' :=
  char_ne_of_toNat (by rw [show ('I').toNat = 73 from rfl]; have := digit_toNat h; omega)

theorem floatBodyMatch_head {c : Char} {r : List Char} (h : floatBodyMatch (c :: r) = true) :
    c = '.' ∨ c.isDigit = true := by
  by_cases hc : c = '.'
  · exact Or.inl hc
  · right
    by_contra hnd
    simp only [Bool.not_eq_true] at hnd
    revert h
    unfold floatBodyMatch
    split
    · rename_i heq
      injection heq with hdd _
      exact absurd hdd hc
    · simp [List.takeWhile_cons, hnd]

theorem floatBodyMatch_takeWhile {c : Char} {r : List Char}
    (h : floatBodyMatch (c :: r) = true) (hc : c ≠ '.') :
    ((c :: r).takeWhile Char.isDigit).isEmpty = false := by
  revert h
  unfold floatBodyMatch
  split
  · rename_i heq
    injection heq with hdd _
    exact fun _ => absurd hdd hc
  · intro h
    simp only [Bool.and_eq_true, Bool.not_eq_true'] at h
    exact h.1

theorem parseFloatBody_some (neg : Bool) {m : List Char} (h : floatBodyMatch m = true) :
    ∃ x, parseFloatBody neg m = some x := by
  rcases m with _ | ⟨c, r⟩
  · simp [floatBodyMatch, List.takeWhile] at h
  · by_cases hc : c = '.'
    · subst hc
      unfold floatBodyMatch at h
      simp only [Bool.and_eq_true, Bool.not_eq_true'] at h
      unfold parseFloatBody
      rw [isPrefixOf_infinity_false (by decide)]
      simp only [Bool.false_eq_true, if_false]
      rw [if_neg (by simp [h.1])]
      exact ⟨_, rfl⟩
    · have hdd : c.isDigit = true := (floatBodyMatch_head h).resolve_left hc
      have hne := floatBodyMatch_takeWhile h hc
      unfold parseFloatBody
      rw [isPrefixOf_infinity_false (digit_ne_I hdd)]
      simp only [Bool.false_eq_true, if_false]
      split
      · rename_i heq
        injection heq with hdd2 _
        exact absurd hdd2 hc
      · rw [if_neg (by simp [hne])]
        split
        · exact ⟨_, rfl⟩
        · exact ⟨_, rfl⟩

theorem parseFloatJS_float {v : String} (h : floatMatch v = true) :
    ∃ x, parseFloatJS v = some x := by
  unfold floatMatch at h
  rcases hdata : v.data with _ | ⟨c, rest⟩
  · rw [hdata] at h
    simp [stripSign, floatBodyMatch, List.takeWhile] at h
  · rw [hdata] at h
    unfold parseFloatJS
    rw [hdata]
    by_cases hcm : c = '-'
    · subst hcm
      simp only [stripSign] at h
      simp only [dropWhile_notWS (show ('-' : Char).isWhitespace = false by decide)]
      exact parseFloatBody_some _ h
    · by_cases hcp : c = '+'
      · subst hcp
        simp only [stripSign] at h
        simp only [dropWhile_notWS (show ('+' : Char).isWhitespace = false by decide)]
        exact parseFloatBody_some _ h
      · rw [stripSign_other hcm hcp] at h
        have hnws : c.isWhitespace = false := by
          rcases floatBodyMatch_head h with hdot | hdig
          · subst hdot; decide
          · exact digit_notWS hdig
        simp only [dropWhile_notWS hnws, signSplit_other hcm hcp]
        exact parseFloatBody_some _ h

end YamlLS
namespace YamlLS

/-- Unfolding of `determineScalarType` on a present scalar node. -/
theorem dst_unfold (sc : YAMLScalar) : determineScalarType (some sc) =
    (if sc.doubleQuoted || (!sc.plainScalar) || sc.singleQuoted then .string
     else match sc.value with
       | none => .null
       | some v =>
         if ["null", "Null", "NULL", "~"].contains v then .null
         else if ["true", "True", "TRUE", "false", "False", "FALSE"].contains v then .bool
         else if base10Match v || base8Match v || base16Match v then .int
         else if floatMatch v || infinityMatch v || [".nan", ".NaN", ".NAN"].contains v then .float
         else .string) := rfl

theorem dst_bool {sc : YAMLScalar} (h : determineScalarType (some sc) = ScalarType.bool) :
    ∃ v, sc.value = some v ∧
      (["true", "True", "TRUE", "false", "False", "FALSE"].contains v) = true := by
  rw [dst_unfold] at h
  split_ifs at h with hq
  rcases hv : sc.value with _ | v
  · rw [hv] at h; exact absurd h (by decide)
  · rw [hv] at h
    dsimp only at h
    split_ifs at h with h1 h2 h3 h4
    exact ⟨v, rfl, h2⟩

theorem dst_int {sc : YAMLScalar} (h : determineScalarType (some sc) = ScalarType.int) :
    ∃ v, sc.value = some v ∧ (base10Match v || base8Match v || base16Match v) = true := by
  rw [dst_unfold] at h
  split_ifs at h with hq
  rcases hv : sc.value with _ | v
  · rw [hv] at h; exact absurd h (by decide)
  · rw [hv] at h
    dsimp only at h
    split_ifs at h with h1 h2 h3 h4
    exact ⟨v, rfl, h3⟩

theorem dst_float {sc : YAMLScalar} (h : determineScalarType (some sc) = ScalarType.float) :
    ∃ v, sc.value = some v ∧
      (floatMatch v || infinityMatch v || ([".nan", ".NaN", ".NAN"].contains v)) = true := by
  rw [dst_unfold] at h
  split_ifs at h with hq
  rcases hv : sc.value with _ | v
  · rw [hv] at h; exact absurd h (by decide)
  · rw [hv] at h
    dsimp only at h
    split_ifs at h with h1 h2 h3 h4
    exact ⟨v, rfl, h4⟩

theorem scalar_bool_ok {sc : YAMLScalar} (h : determineScalarType (some sc) = ScalarType.bool) :
    ∃ b, parseYamlBooleanOpt sc.value = .ok b := by
  obtain ⟨v, hv, hc⟩ := dst_bool h
  rw [hv]
  show ∃ b, parseYamlBoolean v = .ok b
  have hmem : v = "true" ∨ v = "True" ∨ v = "TRUE" ∨ v = "false" ∨ v = "False" ∨ v = "FALSE" := by
    simpa [List.contains, List.elem_eq_mem] using hc
  rcases hmem with rfl | rfl | rfl | rfl | rfl | rfl <;> exact ⟨_, rfl⟩

theorem scalar_int_ok {sc : YAMLScalar} (h : determineScalarType (some sc) = ScalarType.int) :
    ∃ n, parseYamlIntegerOpt sc.value = .ok n := by
  obtain ⟨v, hv, hc⟩ := dst_int h
  rw [hv]
  show ∃ n, parseYamlInteger v = .ok n
  have hsome : ∃ n, safeParseYamlInteger v = some n := by
    simp only [Bool.or_eq_true] at hc
    rcases hc with (h1 | h8) | h16
    · exact safeParse_base10 h1
    · exact parseIntJS_base8 h8
    · exact parseIntJS_base16 h16
  obtain ⟨n, hn⟩ := hsome
  unfold parseYamlInteger
  rw [hn]
  exact ⟨n, rfl⟩

theorem scalar_float_ok {sc : YAMLScalar} (h : determineScalarType (some sc) = ScalarType.float) :
    ∃ f, parseYamlFloatOpt sc.value = .ok f := by
  obtain ⟨v, hv, hc⟩ := dst_float h
  rw [hv]
  show ∃ f, parseYamlFloat v = .ok f
  unfold parseYamlFloat
  by_cases hnan : ([".nan", ".NaN", ".NAN"].contains v) = true
  · rw [if_pos hnan]
    exact ⟨_, rfl⟩
  · rw [if_neg hnan]
    rcases hinf : infinitySign v with _ | neg
    · have hfm : floatMatch v = true := by
        have him : infinityMatch v = false := by simp [infinityMatch, hinf]
        simp only [Bool.or_eq_true] at hc
        rcases hc with (h1 | h2) | h3
        · exact h1
        · rw [him] at h2; exact absurd h2 (by decide)
        · exact absurd h3 hnan
      obtain ⟨x, hx⟩ := parseFloatJS_float hfm
      rw [hx]
      exact ⟨x, rfl⟩
    · exact ⟨_, rfl⟩

end YamlLS

namespace YamlLS

/-- Raw node kinds for which `recursivelyBuildAst` always constructs a node:
anchor/include references (and only they) yield `undefined`. -/
def buildableKind : YamlNode → Bool
  | .map _ _ _ => true
  | .mapping _ _ _ _ => true
  | .seq _ _ _ => true
  | .scalar _ => true
  | .anchorRef _ _ => false
  | .includeRef _ _ => false

mutual

/-- No anchor/include reference occurs in a mapping-value or sequence-item
position anywhere in the raw tree (the positions where the normalizer
dereferences its recursive result). -/
def noRefValues : YamlNode → Bool
  | .map _ _ ms => noRefValuesList ms
  | .mapping _ _ _ none => true
  | .mapping _ _ _ (some v) => buildableKind v && noRefValues v
  | .seq _ _ its => noRefItemsList its
  | .scalar _ => true
  | .anchorRef _ _ => true
  | .includeRef _ _ => true

/-- `noRefValues` over the entries of a mapping list. -/
def noRefValuesList : List YamlNode → Bool
  | [] => true
  | m :: rest => noRefValues m && noRefValuesList rest

/-- `noRefValues` over sequence items, which additionally must themselves be
buildable (an item that builds to `undefined` raises a `TypeError`). -/
def noRefItemsList : List YamlNode → Bool
  | [] => true
  | it :: rest => (buildableKind it && noRefValues it) && noRefItemsList rest

end

/-- Totality statement for `recursivelyBuildAst` (first motive of the
functional induction): on reference-free input the build never throws, and on
a buildable node it returns a constructed node. -/
@[reducible]
def BuildMotive1 (parent : Option Nat) (node : Option YamlNode) (ctr : Nat) : Prop :=
  (∀ n, node = some n → noRefValues n = true →
    ∃ out, recursivelyBuildAst parent node ctr = .ok out) ∧
  (∀ n, node = some n → buildableKind n = true → noRefValues n = true →
    ∃ r c', recursivelyBuildAst parent node ctr = .ok (some r, c'))

/-- Totality statement for `buildItems` (second motive). -/
@[reducible]
def BuildMotive2 (aid : Nat) (items : List YamlNode) (count ctr : Nat) : Prop :=
  noRefItemsList items = true → ∃ out, buildItems aid items count ctr = .ok out

/-- Totality statement for `buildProperties` (third motive). -/
@[reducible]
def BuildMotive3 (oid : Nat) (mappings : List YamlNode) (ctr : Nat) : Prop :=
  noRefValuesList mappings = true → ∃ out, buildProperties oid mappings ctr = .ok out

end YamlLS
namespace YamlLS

/-- On a reference-free raw tree the normalizer never throws: every node the
tokenizer produced builds without an exception, because the scalar classifier
admits exactly texts its value parsing accepts, and reference-free value/item
positions never dereference an `undefined` build result. -/
theorem buildAst_total : ∀ (p : Option Nat) (node : Option YamlNode) (c : Nat),
    BuildMotive1 p node c := by
  apply recursivelyBuildAst.induct BuildMotive1 BuildMotive2 BuildMotive3
  case case1 =>
    intro parent ctr
    constructor
    · intro n hn
      exact nomatch hn
    · intro n hn
      exact nomatch hn
  case case2 =>
    intro parent ctr s e mappings msg herr ih
    have key : ¬ (noRefValuesList mappings = true) := by
      intro hl
      obtain ⟨out, hout⟩ := ih hl
      rw [herr] at hout
      exact absurd hout (by simp)
    constructor
    · intro n hn hnr
      injection hn with hn'; subst hn'
      exact absurd (by simpa [noRefValues] using hnr) key
    · intro n hn hbk hnr
      injection hn with hn'; subst hn'
      exact absurd (by simpa [noRefValues] using hnr) key
  case case3 =>
    intro parent ctr s e mappings props c2 hok ih
    constructor
    · intro n hn hnr
      injection hn with hn'; subst hn'
      simp only [recursivelyBuildAst, hok]
      exact ⟨_, rfl⟩
    · intro n hn hbk hnr
      injection hn with hn'; subst hn'
      simp only [recursivelyBuildAst, hok]
      exact ⟨_, _, rfl⟩
  case case4 =>
    intro parent ctr s e key pid v msg herr ih
    have key2 : ¬ ((buildableKind v && noRefValues v) = true) := by
      intro hl
      simp only [Bool.and_eq_true] at hl
      obtain ⟨r, c', hok⟩ := ih.2 v rfl hl.1 hl.2
      rw [herr] at hok
      exact absurd hok (by simp)
    constructor
    · intro n hn hnr
      injection hn with hn'; subst hn'
      exact absurd (by simpa [noRefValues] using hnr) key2
    · intro n hn hbk hnr
      injection hn with hn'; subst hn'
      exact absurd (by simpa [noRefValues] using hnr) key2
  case case5 =>
    intro parent ctr s e key pid v snd hnone ih
    have key2 : ¬ ((buildableKind v && noRefValues v) = true) := by
      intro hl
      simp only [Bool.and_eq_true] at hl
      obtain ⟨r, c', hok⟩ := ih.2 v rfl hl.1 hl.2
      rw [hnone] at hok
      exact absurd hok (by simp)
    constructor
    · intro n hn hnr
      injection hn with hn'; subst hn'
      exact absurd (by simpa [noRefValues] using hnr) key2
    · intro n hn hbk hnr
      injection hn with hn'; subst hn'
      exact absurd (by simpa [noRefValues] using hnr) key2
  case case6 =>
    intro parent ctr s e key pid v vn c2 hok ih
    constructor
    · intro n hn hnr
      injection hn with hn'; subst hn'
      simp only [recursivelyBuildAst, hok]
      exact ⟨_, rfl⟩
    · intro n hn hbk hnr
      injection hn with hn'; subst hn'
      simp only [recursivelyBuildAst, hok]
      exact ⟨_, _, rfl⟩
  case case7 =>
    intro parent ctr s e key
    constructor
    · intro n hn hnr
      injection hn with hn'; subst hn'
      simp only [recursivelyBuildAst]
      exact ⟨_, rfl⟩
    · intro n hn hbk hnr
      injection hn with hn'; subst hn'
      simp only [recursivelyBuildAst]
      exact ⟨_, _, rfl⟩
  case case8 =>
    intro parent ctr s e items msg herr ih
    have key : ¬ (noRefItemsList items = true) := by
      intro hl
      obtain ⟨out, hout⟩ := ih hl
      rw [herr] at hout
      exact absurd hout (by simp)
    constructor
    · intro n hn hnr
      injection hn with hn'; subst hn'
      exact absurd (by simpa [noRefValues] using hnr) key
    · intro n hn hbk hnr
      injection hn with hn'; subst hn'
      exact absurd (by simpa [noRefValues] using hnr) key
  case case9 =>
    intro parent ctr s e items props c2 hok ih
    constructor
    · intro n hn hnr
      injection hn with hn'; subst hn'
      simp only [recursivelyBuildAst, hok]
      exact ⟨_, rfl⟩
    · intro n hn hbk hnr
      injection hn with hn'; subst hn'
      simp only [recursivelyBuildAst, hok]
      exact ⟨_, _, rfl⟩
  case case10 =>
    intro parent ctr sc hdst
    constructor
    · intro n hn hnr
      injection hn with hn'; subst hn'
      simp only [recursivelyBuildAst, hdst]
      exact ⟨_, rfl⟩
    · intro n hn hbk hnr
      injection hn with hn'; subst hn'
      simp only [recursivelyBuildAst, hdst]
      exact ⟨_, _, rfl⟩
  case case11 =>
    intro parent ctr sc hdst msg herr
    exfalso
    obtain ⟨b, hb⟩ := scalar_bool_ok hdst
    rw [herr] at hb
    exact absurd hb (by simp)
  case case12 =>
    intro parent ctr sc hdst b hok
    constructor
    · intro n hn hnr
      injection hn with hn'; subst hn'
      simp only [recursivelyBuildAst, hdst, hok]
      exact ⟨_, rfl⟩
    · intro n hn hbk hnr
      injection hn with hn'; subst hn'
      simp only [recursivelyBuildAst, hdst, hok]
      exact ⟨_, _, rfl⟩
  case case13 =>
    intro parent ctr sc hdst msg herr
    exfalso
    obtain ⟨m, hm⟩ := scalar_int_ok hdst
    rw [herr] at hm
    exact absurd hm (by simp)
  case case14 =>
    intro parent ctr sc hdst m hok
    constructor
    · intro n hn hnr
      injection hn with hn'; subst hn'
      simp only [recursivelyBuildAst, hdst, hok]
      exact ⟨_, rfl⟩
    · intro n hn hbk hnr
      injection hn with hn'; subst hn'
      simp only [recursivelyBuildAst, hdst, hok]
      exact ⟨_, _, rfl⟩
  case case15 =>
    intro parent ctr sc hdst msg herr
    exfalso
    obtain ⟨f, hf⟩ := scalar_float_ok hdst
    rw [herr] at hf
    exact absurd hf (by simp)
  case case16 =>
    intro parent ctr sc hdst f hok
    constructor
    · intro n hn hnr
      injection hn with hn'; subst hn'
      simp only [recursivelyBuildAst, hdst, hok]
      exact ⟨_, rfl⟩
    · intro n hn hbk hnr
      injection hn with hn'; subst hn'
      simp only [recursivelyBuildAst, hdst, hok]
      exact ⟨_, _, rfl⟩
  case case17 =>
    intro parent ctr sc hdst
    constructor
    · intro n hn hnr
      injection hn with hn'; subst hn'
      simp only [recursivelyBuildAst, hdst]
      exact ⟨_, rfl⟩
    · intro n hn hbk hnr
      injection hn with hn'; subst hn'
      simp only [recursivelyBuildAst, hdst]
      exact ⟨_, _, rfl⟩
  case case18 =>
    intro parent ctr s e
    constructor
    · intro n hn hnr
      injection hn with hn'; subst hn'
      simp only [recursivelyBuildAst]
      exact ⟨_, rfl⟩
    · intro n hn hbk
      injection hn with hn'; subst hn'
      exact absurd hbk (by simp [buildableKind])
  case case19 =>
    intro parent ctr s e
    constructor
    · intro n hn hnr
      injection hn with hn'; subst hn'
      simp only [recursivelyBuildAst]
      exact ⟨_, rfl⟩
    · intro n hn hbk
      injection hn with hn'; subst hn'
      exact absurd hbk (by simp [buildableKind])
  case case20 =>
    intro aid count ctr
    intro hno
    simp only [buildItems]
    exact ⟨_, rfl⟩
  case case21 =>
    intro aid count ctr m rest msg herr ih
    intro hno
    exfalso
    simp only [noRefItemsList, Bool.and_eq_true] at hno
    obtain ⟨r, c', hok⟩ := ih.2 m rfl hno.1.1 hno.1.2
    rw [herr] at hok
    exact absurd hok (by simp)
  case case22 =>
    intro aid count ctr m rest snd hnone ih
    intro hno
    exfalso
    simp only [noRefItemsList, Bool.and_eq_true] at hno
    obtain ⟨r, c', hok⟩ := ih.2 m rfl hno.1.1 hno.1.2
    rw [hnone] at hok
    exact absurd hok (by simp)
  case case23 =>
    intro aid count ctr m rest vn c2 hok msg herr ih1 ih2
    intro hno
    exfalso
    simp only [noRefItemsList, Bool.and_eq_true] at hno
    obtain ⟨out, hout⟩ := ih2 hno.2
    rw [herr] at hout
    exact absurd hout (by simp)
  case case24 =>
    intro aid count ctr m rest vn c2 hok props c21 hrest ih1 ih2
    intro hno
    simp only [buildItems, hok, hrest]
    exact ⟨_, rfl⟩
  case case25 =>
    intro oid ctr
    intro hno
    simp only [buildProperties]
    exact ⟨_, rfl⟩
  case case26 =>
    intro oid ctr m rest msg herr ih
    intro hno
    exfalso
    simp only [noRefValuesList, Bool.and_eq_true] at hno
    obtain ⟨out, hout⟩ := ih.1 m rfl hno.1
    rw [herr] at hout
    exact absurd hout (by simp)
  case case27 =>
    intro oid ctr m rest r c2 hok msg herr ih1 ih2
    intro hno
    exfalso
    simp only [noRefValuesList, Bool.and_eq_true] at hno
    obtain ⟨out, hout⟩ := ih2 hno.2
    rw [herr] at hout
    exact absurd hout (by simp)
  case case28 =>
    intro oid ctr m rest c2 props c21 hrest p hok ih1 ih2
    intro hno
    simp only [buildProperties, hok, hrest]
    exact ⟨_, rfl⟩
  case case29 =>
    intro oid ctr m rest c2 props c21 hrest hnone ih1 ih2
    intro hno
    simp only [buildProperties, hnone, hrest]
    exact ⟨_, rfl⟩

end YamlLS
namespace YamlLS

theorem setLocation_parentId (n : ASTNode) (loc : Location) :
    (n.setLocation loc).parentId = n.parentId := by
  cases n <;> rfl

theorem setLocation_nodeId (n : ASTNode) (loc : Location) :
    (n.setLocation loc).nodeId = n.nodeId := by
  cases n <;> rfl

/-- Every node constructed by `recursivelyBuildAst` stores the `parent`
argument it was created with as its parent back-reference. -/
theorem build_parentId {n : YamlNode} {p : Option Nat} {c : Nat} {r : ASTNode} {c' : Nat}
    (h : recursivelyBuildAst p (some n) c = .ok (some r, c')) : r.parentId = p := by
  have finish : ∀ (a : ASTNode) (c2 : Nat),
      (Except.ok (some a, c2) : Except String (Option ASTNode × Nat)) = .ok (some r, c') →
      a.parentId = p → r.parentId = p := by
    intro a c2 heq hp
    simp only [Except.ok.injEq, Prod.mk.injEq, Option.some.injEq] at heq
    rw [← heq.1]
    exact hp
  cases n with
  | map s e ms =>
    simp only [recursivelyBuildAst] at h
    split at h
    · simp at h
    · exact finish _ _ h rfl
  | mapping s e key value =>
    rcases value with _ | v
    · simp only [recursivelyBuildAst] at h
      exact finish _ _ h rfl
    · simp only [recursivelyBuildAst] at h
      split at h
      · simp at h
      · simp at h
      · exact finish _ _ h rfl
  | seq s e its =>
    simp only [recursivelyBuildAst] at h
    split at h
    · simp at h
    · exact finish _ _ h rfl
  | scalar sc =>
    simp only [recursivelyBuildAst] at h
    split at h
    · exact finish _ _ h rfl
    · split at h
      · simp at h
      · exact finish _ _ h rfl
    · split at h
      · simp at h
      · exact finish _ _ h rfl
    · split at h
      · simp at h
      · exact finish _ _ h rfl
    · exact finish _ _ h rfl
  | anchorRef s e =>
    simp only [recursivelyBuildAst] at h
    simp at h
  | includeRef s e =>
    simp only [recursivelyBuildAst] at h
    simp at h

end YamlLS
namespace YamlLS

/-- C10: in the tree built by `recursivelyBuildAst`, a mapping entry with an
explicit value yields a value node whose parent back-reference is the
property node itself, whereas an elided value yields a synthesized null node
(spanning the entry) whose parent back-reference is the `parent` argument of
the mapping case — the enclosing object — and not the owning property. -/
theorem mapping_value_parent (p : Option Nat) (ctr s e : Nat) (key : YAMLScalar) :
    (∃ keyNode c',
      recursivelyBuildAst p (some (.mapping s e key none)) ctr =
        .ok (some (.propertyN p (ctr + 1) .nullLoc key.startPosition e keyNode
          (some (.nullN p (ctr + 2) (locationOf key.value) s e))), c')) ∧
    ((∀ q, p = some q → q < ctr) → p ≠ some (ctr + 1)) ∧
    (∀ v r c', recursivelyBuildAst p (some (.mapping s e key (some v))) ctr = .ok (some r, c') →
      r.nodeId = ctr + 1 ∧ ∃ vn, r.propValue = some vn ∧ vn.parentId = some r.nodeId) :=
  by
  refine ⟨?_, ?_, ?_⟩
  · exact ⟨ASTNode.stringN (some (ctr + 1)) ctr (locationOf key.value) true
      key.startPosition key.endPosition key.value, ctr + 3,
      by simp only [recursivelyBuildAst, ASTNode.setLocation]⟩
  · intro hfresh heq
    have := hfresh (ctr + 1) heq
    omega
  · intro v r c' h
    simp only [recursivelyBuildAst] at h
    split at h
    · simp at h
    · simp at h
    · rename_i vn c2 hin
      simp only [Except.ok.injEq, Prod.mk.injEq, Option.some.injEq] at h
      obtain ⟨h1, h2⟩ := h
      subst h1
      constructor
      · rfl
      · refine ⟨_, rfl, ?_⟩
        rw [setLocation_parentId]
        rw [build_parentId hin]
        rfl

/-- C10 witness: the mapping entry `a:` (elided value) at concrete input, and
the entry `a: true` (explicit value), built with the enclosing object's id 0
and counter 1 — the elided entry's null value points at the object (id 0),
not at the property (id 2), while the explicit entry's value points at the
property. -/
theorem mapping_value_parent_witness :
    (∃ keyNode c',
      recursivelyBuildAst (some 0) (some (.mapping 0 2 ⟨some "a", false, false, true, 0, 1⟩ none)) 1 =
        .ok (some (.propertyN (some 0) 2 .nullLoc 0 2 keyNode
          (some (.nullN (some 0) 3 (locationOf (some "a")) 0 2))), c')) ∧
    (some 0 : Option Nat) ≠ some 2 := by
  constructor
  · exact (mapping_value_parent (some 0) 1 0 2 ⟨some "a", false, false, true, 0, 1⟩).1
  · exact (mapping_value_parent (some 0) 1 0 2 ⟨some "a", false, false, true, 0, 1⟩).2.1
      (by intro q hq; injection hq with hq'; omega)

end YamlLS
namespace YamlLS

/-- C1 counterexample: on the raw tree for a mapping entry whose value is an
anchor reference (e.g. `a: *x`), the recursive build yields `undefined` and
the `valueNode.location = key.value` assignment raises a `TypeError` that
escapes `parse` uncaught — `parse` does not return a `Document` for every
input. -/
theorem parse_anchorRef_throws :
    parse (.mapping 0 10 ⟨some "a", false, false, true, 0, 1⟩ (some (.anchorRef 3 5))) [] =
      .error typeErrorUndefinedLocation ∧
    ∀ d : JSONDocument,
      parse (.mapping 0 10 ⟨some "a", false, false, true, 0, 1⟩ (some (.anchorRef 3 5))) [] ≠
        .ok d := by
  constructor
  · simp only [parse, recursivelyBuildAst]
  · intro d hd
    rw [(by simp only [parse, recursivelyBuildAst] :
      parse (.mapping 0 10 ⟨some "a", false, false, true, 0, 1⟩ (some (.anchorRef 3 5))) [] =
        .error typeErrorUndefinedLocation)] at hd
    exact absurd hd (by simp)

/-- C1 amended: provided no anchor/include reference occurs in a
mapping-value or sequence-item position of the raw tree, `parse` returns a
`Document` and never lets a failure escape; scalar parse failures cannot
arise (the classifier guards them), and every tokenizer diagnostic is
converted into an entry of the document's `errors` or `warnings` lists. -/
theorem parse_total_noRefs (yamlDoc : YamlNode) (rawErrors : List YamlError)
    (h : noRefValues yamlDoc = true) :
    (∃ d, parse yamlDoc rawErrors = .ok d) ∧
    (∀ d, parse yamlDoc rawErrors = .ok d →
      ∀ e ∈ rawErrors, convertError e ∈ d.errors ∨ convertError e ∈ d.warnings) := by
  obtain ⟨out, hout⟩ := (buildAst_total none (some yamlDoc) 0).1 yamlDoc rfl h
  obtain ⟨root, c⟩ := out
  constructor
  · simp only [parse, hout]
    exact ⟨_, rfl⟩
  · intro d hd e he
    simp only [parse, hout] at hd
    simp only [Except.ok.injEq] at hd
    subst hd
    by_cases hr : (e.reason == duplicateKeyReason) = true
    · right
      simp only []
      exact List.mem_map_of_mem convertError (List.mem_filter.mpr ⟨he, hr⟩)
    · left
      simp only []
      refine List.mem_append.mpr (Or.inr ?_)
      refine List.mem_map_of_mem convertError (List.mem_filter.mpr ⟨he, ?_⟩)
      simp only [bne_iff_ne, ne_eq]
      simpa using hr

/-- C1 amended witness: a reference-free scalar document together with one
raw diagnostic parses successfully, and the diagnostic lands in the
document's lists. -/
theorem parse_total_noRefs_witness :
    ∃ d, parse (.scalar ⟨some "hello", false, false, true, 0, 5⟩)
      [⟨"bad thing", "msg", 0, 7⟩] = .ok d :=
  (parse_total_noRefs (.scalar ⟨some "hello", false, false, true, 0, 5⟩)
    [⟨"bad thing", "msg", 0, 7⟩] (by decide)).1

end YamlLS
namespace YamlLS

/-- C2: `parse` partitions the external parser's raw diagnostics by reason —
exactly the ones whose reason is `duplicate key` become warnings, every other
one becomes an error; consequently, when a root was built and the raw
diagnostics are a nonempty list of duplicate-key reports, the document has
zero errors and at least one warning, while any raw diagnostic with a
different reason produces at least one error. -/
theorem parse_partition (yamlDoc : YamlNode) (raws : List YamlError) (d : JSONDocument)
    (hok : parse yamlDoc raws = .ok d) :
    (d.warnings = (raws.filter (fun e => e.reason == duplicateKeyReason)).map convertError) ∧
    (d.root.isSome = true →
      d.errors = (raws.filter (fun e => e.reason != duplicateKeyReason)).map convertError) ∧
    (d.root.isSome = true → raws ≠ [] → (∀ e ∈ raws, e.reason = duplicateKeyReason) →
      d.errors = [] ∧ 1 ≤ d.warnings.length) ∧
    ((∃ e ∈ raws, e.reason ≠ duplicateKeyReason) → 1 ≤ d.errors.length) := by
  unfold parse at hok
  rcases hbuild : recursivelyBuildAst none (some yamlDoc) 0 with msg | out
  · rw [hbuild] at hok
    exact absurd hok (by simp)
  · rw [hbuild] at hok
    obtain ⟨root, c⟩ := out
    simp only [Except.ok.injEq] at hok
    subst hok
    refine ⟨rfl, ?_, ?_, ?_⟩
    · intro hsome
      rcases root with _ | r
      · simp at hsome
      · rfl
    · intro hsome hne hall
      have hfilterEmpty : raws.filter (fun e => e.reason != duplicateKeyReason) = [] := by
        rw [List.filter_eq_nil_iff]
        intro e he
        simp only [bne_iff_ne, ne_eq, Bool.not_eq_true, decide_eq_false_iff_not, not_not]
        exact hall e he
      have hfilterAll : raws.filter (fun e => e.reason == duplicateKeyReason) = raws := by
        rw [List.filter_eq_self]
        intro e he
        simp only [beq_iff_eq]
        exact hall e he
      constructor
      · rcases root with _ | r
        · simp at hsome
        · simp only [hfilterEmpty, List.map_nil, List.append_nil]
      · simp only [hfilterAll, List.length_map]
        rcases raws with _ | ⟨e0, rest⟩
        · exact absurd rfl hne
        · simp
    · intro ⟨e, he, hne⟩
      have hmem : convertError e ∈ (raws.filter (fun e => e.reason != duplicateKeyReason)).map convertError := by
        refine List.mem_map_of_mem convertError (List.mem_filter.mpr ⟨he, ?_⟩)
        simpa [bne_iff_ne] using hne
      have : 1 ≤ ((raws.filter (fun e => e.reason != duplicateKeyReason)).map convertError).length := by
        rcases hmap : (raws.filter (fun e => e.reason != duplicateKeyReason)).map convertError with _ | ⟨x, xs⟩
        · rw [hmap] at hmem; simp at hmem
        · rw [hmap]; simp
      simp only [List.length_append]
      omega

/-- C2 witness: the duplicate-key document `{"a": 1, "a": 2}` — modelled by
the raw tree the external parser produces for it together with its single
`duplicate key` diagnostic — parses with zero errors and one warning. -/
theorem parse_partition_witness :
    ∃ d, parse
        (.map 0 16 [.mapping 1 7 ⟨some "a", false, false, true, 1, 4⟩
            (some (.scalar ⟨some "1", false, false, true, 6, 7⟩)),
          .mapping 9 15 ⟨some "a", false, false, true, 9, 12⟩
            (some (.scalar ⟨some "2", false, false, true, 14, 15⟩))])
        [⟨"duplicate key", "duplicated mapping key", 9, 18⟩] = .ok d ∧
      d.errors = [] ∧ 1 ≤ d.warnings.length := by
  have hok : parse
      (.map 0 16 [.mapping 1 7 ⟨some "a", false, false, true, 1, 4⟩
          (some (.scalar ⟨some "1", false, false, true, 6, 7⟩)),
        .mapping 9 15 ⟨some "a", false, false, true, 9, 12⟩
          (some (.scalar ⟨some "2", false, false, true, 14, 15⟩))])
      [⟨"duplicate key", "duplicated mapping key", 9, 18⟩] =
      .ok { root := some (.objectN none 0 .nullLoc 0 16
              [.propertyN (some 0) 2 .nullLoc 1 7
                 (.stringN (some 2) 1 (.strLoc "a") true 1 4 (some "a"))
                 (some (.numberN (some 2) 3 (.strLoc "a") 6 7 (.intVal 1) true)),
               .propertyN (some 0) 5 .nullLoc 9 15
                 (.stringN (some 5) 4 (.strLoc "a") true 9 12 (some "a"))
                 (some (.numberN (some 5) 6 (.strLoc "a") 14 15 (.intVal 2) true))])
          , errors := []
          , warnings := [{ message := "duplicated mapping key", start := 9, stop := 16 }] } := by
    simp only [parse, recursivelyBuildAst, buildProperties]
    rfl
  refine ⟨_, hok, ?_⟩
  have h := parse_partition _ _ _ hok
  refine (h.2.2.1 rfl ?_ ?_)
  · simp
  · intro e he
    simp only [List.mem_singleton] at he
    subst he
    rfl

end YamlLS
namespace YamlLS

/-- `os.EOL`, modelled as the POSIX line ending used by the test suite. -/
def EOL : String := "\n"

/-- JavaScript `Array.prototype.join(sep)`. -/
def joinSep (sep : String) : List String → String
  | [] => ""
  | [d] => d
  | d :: rest => d ++ sep ++ joinSep sep rest

/-- The `newText` computation of `format` from the formatter source, over the
list of canonically dumped document bodies (`documents.map(d =>
jsyaml.safeDump(d, {indent}))`): a single document is emitted as its dump
alone; otherwise a `%YAML 1.2` stream header, a `---` start marker, the
bodies joined by `...`-then-`---` markers, and a final `...` marker. The
surrounding whole-document `TextEdit.replace` is not modelled. -/
def formatNewText (dumped : List String) : String :=
  match dumped with
  | [d] => d
  | ds => "%YAML 1.2" ++ EOL ++ "---" ++ EOL ++
      joinSep ("..." ++ EOL ++ "---" ++ EOL) ds ++ "..." ++ EOL

/-- One document's framing in a multi-document stream: a `---` start marker,
the dumped body, and a `...` end marker. -/
def docFrame (d : String) : String := "---" ++ EOL ++ d ++ "..." ++ EOL

theorem frames_eq (d : String) (ds : List String) :
    "---" ++ EOL ++ joinSep ("..." ++ EOL ++ "---" ++ EOL) (d :: ds) ++ "..." ++ EOL =
      ((d :: ds).map docFrame).foldr (· ++ ·) "" := by
  induction ds generalizing d with
  | nil =>
    show "---" ++ EOL ++ d ++ "..." ++ EOL = docFrame d ++ ""
    simp [docFrame, String.append_assoc]
  | cons x xs ih =>
    show "---" ++ EOL ++ (d ++ ("..." ++ EOL ++ "---" ++ EOL) ++
        joinSep ("..." ++ EOL ++ "---" ++ EOL) (x :: xs)) ++ "..." ++ EOL =
      docFrame d ++ ((x :: xs).map docFrame).foldr (· ++ ·) ""
    rw [← ih x]
    simp [docFrame, String.append_assoc]

/-- C6 counterexample: for an input stream with zero documents the formatter
does not emit the header alone followed by zero `---`/`...` pairs — it emits
the header plus one empty `---`/`...` frame, so document count does not
round-trip at zero. -/
theorem formatNewText_zero :
    formatNewText [] = "%YAML 1.2" ++ EOL ++ "---" ++ EOL ++ "..." ++ EOL ∧
    formatNewText [] ≠ "%YAML 1.2" ++ EOL ++ (([] : List String).map docFrame).foldr (· ++ ·) "" := by
  constructor
  · rfl
  · decide

/-- C6 amended: for two or more documents the output is the `%YAML 1.2`
stream header followed by, for each document in original order, a `---` start
marker, the dumped body, and a `...` end marker; for exactly one document the
output is just that document's dump; for zero documents the output is the
header followed by a single empty `---`/`...` frame. -/
theorem formatNewText_framing :
    (∀ ds : List String, 2 ≤ ds.length →
      formatNewText ds = "%YAML 1.2" ++ EOL ++ (ds.map docFrame).foldr (· ++ ·) "") ∧
    (∀ d, formatNewText [d] = d) ∧
    (formatNewText [] = "%YAML 1.2" ++ EOL ++ docFrame "") := by
  refine ⟨?_, fun d => rfl, by rfl⟩
  intro ds hlen
  rcases ds with _ | ⟨d, _ | ⟨x, xs⟩⟩
  · simp at hlen
  · simp at hlen
  · show "%YAML 1.2" ++ EOL ++ "---" ++ EOL ++
        joinSep ("..." ++ EOL ++ "---" ++ EOL) (d :: x :: xs) ++ "..." ++ EOL = _
    rw [show "%YAML 1.2" ++ EOL ++ "---" ++ EOL ++
        joinSep ("..." ++ EOL ++ "---" ++ EOL) (d :: x :: xs) ++ "..." ++ EOL =
        "%YAML 1.2" ++ EOL ++ ("---" ++ EOL ++
          joinSep ("..." ++ EOL ++ "---" ++ EOL) (d :: x :: xs) ++ "..." ++ EOL) from by
      simp [String.append_assoc]]
    rw [frames_eq]

/-- C6 amended witness: two dumped bodies produce exactly two framed
documents after the stream header, in order. -/
theorem formatNewText_framing_witness :
    formatNewText ["a: 1\n", "b: 2\n"] =
      "%YAML 1.2" ++ EOL ++ ((["a: 1\n", "b: 2\n"]).map docFrame).foldr (· ++ ·) "" :=
  formatNewText_framing.1 ["a: 1\n", "b: 2\n"] (by decide)

end YamlLS
namespace YamlLS

/-- Modelled from the spec: `insertionPointReturnValue` of
`documentPositionCalculator.ts` is not part of the repository snapshot (only
its test suite is); the spec prescribes a reversible negative encoding of the
would-be insertion index, distinguishable from every valid index. -/
def insertionPointReturnValue (pt : Nat) : Int := -(pt : Int) - 1

/-- Modelled from the spec: binary search over the half-open index range
`[lo, hi)` of a sorted array; exact index on a hit, the encoded insertion
point on a miss. -/
def binarySearchAux (a : List Int) (sought : Int) (lo hi : Nat) : Int :=
  if h : lo < hi then
    let idx := (lo + hi) / 2
    let value := a.getD idx 0
    if value = sought then (idx : Int)
    else if sought < value then binarySearchAux a sought lo idx
    else binarySearchAux a sought (idx + 1) hi
  else insertionPointReturnValue lo
termination_by hi - lo
decreasing_by all_goals (simp_wf; omega)

/-- Modelled from the spec: `binarySearch(sortedArray, target)` of
`documentPositionCalculator.ts`. -/
def binarySearch (a : List Int) (sought : Int) : Int :=
  binarySearchAux a sought 0 a.length

theorem binarySearchAux_step (a : List Int) (x : Int) (lo hi : Nat) (h : lo < hi) :
    binarySearchAux a x lo hi =
      (if a.getD ((lo + hi) / 2) 0 = x then (((lo + hi) / 2 : Nat) : Int)
       else if x < a.getD ((lo + hi) / 2) 0 then binarySearchAux a x lo ((lo + hi) / 2)
       else binarySearchAux a x ((lo + hi) / 2 + 1) hi) := by
  rw [binarySearchAux, dif_pos h]

theorem binarySearchAux_stop (a : List Int) (x : Int) (lo hi : Nat) (h : ¬ lo < hi) :
    binarySearchAux a x lo hi = insertionPointReturnValue lo := by
  rw [binarySearchAux, dif_neg h]

theorem binarySearchAux_spec (a : List Int) (x : Int) :
    ∀ (fuel lo hi : Nat), hi - lo ≤ fuel → lo ≤ hi → hi ≤ a.length →
    (∀ i j, i < j → j < a.length → a.getD i 0 < a.getD j 0) →
    (∀ j, j < lo → j < a.length → a.getD j 0 < x) →
    (∀ j, hi ≤ j → j < a.length → x < a.getD j 0) →
    (∃ i, lo ≤ i ∧ i < hi ∧ binarySearchAux a x lo hi = (i : Int) ∧ a.getD i 0 = x) ∨
    (∃ i, lo ≤ i ∧ i ≤ hi ∧ binarySearchAux a x lo hi = insertionPointReturnValue i ∧
      (∀ j, j < i → j < a.length → a.getD j 0 < x) ∧
      (∀ j, i ≤ j → j < a.length → x < a.getD j 0)) := by
  intro fuel
  induction fuel with
  | zero =>
    intro lo hi hfuel hlh hhl mono hlo hhi
    have heq : hi = lo := by omega
    subst heq
    right
    refine ⟨hi, le_refl _, le_refl _, binarySearchAux_stop a x hi hi (by omega), hlo, ?_⟩
    exact fun j hj hjl => hhi j hj hjl
  | succ fuel ih =>
    intro lo hi hfuel hlh hhl mono hlo hhi
    by_cases hlt : lo < hi
    · have hidx1 : lo ≤ (lo + hi) / 2 := by omega
      have hidx2 : (lo + hi) / 2 < hi := by omega
      have hidxlen : (lo + hi) / 2 < a.length := by omega
      rcases lt_trichotomy (a.getD ((lo + hi) / 2) 0) x with hvl | hve | hvg
      · -- middle value below target: search the right half
        have hstep : binarySearchAux a x lo hi = binarySearchAux a x ((lo + hi) / 2 + 1) hi := by
          rw [binarySearchAux_step a x lo hi hlt, if_neg (by omega), if_neg (by omega)]
        have hlo' : ∀ j, j < (lo + hi) / 2 + 1 → j < a.length → a.getD j 0 < x := by
          intro j hj hjl
          rcases Nat.lt_or_ge j ((lo + hi) / 2) with hj' | hj'
          · exact lt_trans (mono j ((lo + hi) / 2) hj' hidxlen) hvl
          · have : j = (lo + hi) / 2 := by omega
            rw [this]
            exact hvl
        have := ih ((lo + hi) / 2 + 1) hi (by omega) (by omega) hhl mono hlo' hhi
        rw [hstep]
        rcases this with ⟨i, h1, h2, h3, h4⟩ | ⟨i, h1, h2, h3, h4, h5⟩
        · exact Or.inl ⟨i, by omega, h2, h3, h4⟩
        · exact Or.inr ⟨i, by omega, h2, h3, h4, h5⟩
      · -- hit
        left
        refine ⟨(lo + hi) / 2, hidx1, hidx2, ?_, hve⟩
        rw [binarySearchAux_step a x lo hi hlt, if_pos hve]
      · -- middle value above target: search the left half
        have hstep : binarySearchAux a x lo hi = binarySearchAux a x lo ((lo + hi) / 2) := by
          rw [binarySearchAux_step a x lo hi hlt, if_neg (by omega), if_pos hvg]
        have hhi' : ∀ j, (lo + hi) / 2 ≤ j → j < a.length → x < a.getD j 0 := by
          intro j hj hjl
          rcases Nat.lt_or_ge j ((lo + hi) / 2 + 1) with hj' | hj'
          · have : j = (lo + hi) / 2 := by omega
            rw [this]
            exact hvg
          · exact lt_trans hvg (mono ((lo + hi) / 2) j (by omega) hjl)
        have := ih lo ((lo + hi) / 2) (by omega) (by omega) (by omega) mono hlo hhi'
        rw [hstep]
        rcases this with ⟨i, h1, h2, h3, h4⟩ | ⟨i, h1, h2, h3, h4, h5⟩
        · exact Or.inl ⟨i, h1, by omega, h3, h4⟩
        · exact Or.inr ⟨i, h1, by omega, h3, h4, h5⟩
    · have heq : hi = lo := by omega
      subst heq
      right
      refine ⟨hi, le_refl _, le_refl _, binarySearchAux_stop a x hi hi (by omega), hlo, ?_⟩
      exact fun j hj hjl => hhi j hj hjl

end YamlLS
namespace YamlLS

/-- C4: on a strictly sorted sequence, `binarySearch` returns the exact index
of the target when present; when absent it returns the encoded insertion
point `insertionPointReturnValue ip` for the unique `ip` in `[0, |S|]` that
splits the sequence into elements below and above the target, and every
encoded value is negative, hence distinguishable from every valid hit index,
including index 0. -/
theorem binarySearch_spec (a : List Int) (x : Int) (hsorted : List.Sorted (· < ·) a) :
    (∀ i (hi : i < a.length), a.get ⟨i, hi⟩ = x → binarySearch a x = (i : Int)) ∧
    (x ∉ a → ∃ ip, ip ≤ a.length ∧ binarySearch a x = insertionPointReturnValue ip ∧
      (∀ j (hj : j < a.length), j < ip → a.get ⟨j, hj⟩ < x) ∧
      (∀ j (hj : j < a.length), ip ≤ j → x < a.get ⟨j, hj⟩)) ∧
    (∀ ip : Nat, insertionPointReturnValue ip < 0) := by
  have mono : ∀ i j, i < j → j < a.length → a.getD i 0 < a.getD j 0 := by
    intro i j hij hj
    have hi : i < a.length := lt_trans hij hj
    rw [List.getD_eq_get a 0 hi, List.getD_eq_get a 0 hj]
    exact hsorted.rel_get_of_lt (Fin.mk_lt_mk.mpr hij)
  have base := binarySearchAux_spec a x a.length 0 a.length (by omega) (by omega) (le_refl _)
    mono (fun j hj _ => absurd hj (Nat.not_lt_zero j)) (fun j hj hjl => absurd hjl (by omega))
  refine ⟨?_, ?_, ?_⟩
  · intro i hi hx
    rcases base with ⟨i', _, _, h3, h4⟩ | ⟨ip, _, _, h3, h4, h5⟩
    · have hieq : i' = i := by
        by_contra hne
        rcases Nat.lt_or_ge i' i with hlt | hge
        · have hm := mono i' i hlt hi
          rw [h4, List.getD_eq_get a 0 hi, hx] at hm
          exact lt_irrefl x hm
        · have hlt' : i < i' := by omega
          have hi' : i' < a.length := by omega
          have hm := mono i i' hlt' hi'
          rw [h4, List.getD_eq_get a 0 hi, hx] at hm
          exact lt_irrefl x hm
      rw [← hieq]
      exact h3
    · exfalso
      rcases Nat.lt_or_ge i ip with hlt | hge
      · have := h4 i hlt hi
        rw [List.getD_eq_get a 0 hi, hx] at this
        exact lt_irrefl x this
      · have := h5 i hge hi
        rw [List.getD_eq_get a 0 hi, hx] at this
        exact lt_irrefl x this
  · intro hnm
    rcases base with ⟨i', _, hilen, h3, h4⟩ | ⟨ip, _, hle, h3, h4, h5⟩
    · exfalso
      have hi' : i' < a.length := by omega
      rw [List.getD_eq_get a 0 hi'] at h4
      exact hnm (h4 ▸ List.get_mem a i' hi')
    · refine ⟨ip, hle, h3, ?_, ?_⟩
      · intro j hj hjip
        have := h4 j hjip hj
        rwa [List.getD_eq_get a 0 hj] at this
      · intro j hj hjip
        have := h5 j hjip hj
        rwa [List.getD_eq_get a 0 hj] at this
  · intro ip
    unfold insertionPointReturnValue
    omega

/-- C4 witness: on the sorted test array `[3,5,7,8,9,21,34]` the target `5`
is found at index 1; on `[1,2,3]` the absent target `4` yields the encoded
insertion point for index 3, which is negative. -/
theorem binarySearch_spec_witness :
    binarySearch [3, 5, 7, 8, 9, 21, 34] 5 = 1 ∧
    binarySearch [1, 2, 3] 4 = insertionPointReturnValue 3 ∧
    insertionPointReturnValue 3 < 0 := by
  refine ⟨?_, ?_, ?_⟩
  · exact (binarySearch_spec [3, 5, 7, 8, 9, 21, 34] 5 (by decide)).1 1 (by decide) (by decide)
  · obtain ⟨ip, hip, heq, h4, h5⟩ :=
      (binarySearch_spec [1, 2, 3] 4 (by decide)).2.1 (by decide)
    have hip' : ip ≤ 3 := by simpa using hip
    clear hip
    interval_cases ip
    · exact absurd (h5 0 (by decide) (by decide)) (by decide)
    · exact absurd (h5 1 (by decide) (by decide)) (by decide)
    · exact absurd (h5 2 (by decide) (by decide)) (by decide)
    · exact heq
  · exact (binarySearch_spec [] 0 (by decide)).2.2 3

end YamlLS
namespace YamlLS

/-- Kinds of normalized nodes, as relevant to offset lookup. -/
inductive NodeKind where
  | objectK
  | arrayK
  | propertyK
  | stringK
  | numberK
  | booleanK
  | nullK
deriving DecidableEq, Repr

/-- Modelled from the spec: the node tree as seen by the offset queries of
the document model (`getNodeFromOffset` / `getNodeFromOffsetEndInclusive`,
whose implementation is not part of the repository snapshot — only its test
suite is): a kind, a half-open span, and the ordered children. -/
inductive JNode where
  | node (kind : NodeKind) (start stop : Nat) (children : List JNode)
deriving Repr

/-- Start offset of a node. -/
def JNode.start : JNode → Nat
  | .node _ s _ _ => s

/-- End offset of a node (the `end` of its half-open span). -/
def JNode.stop : JNode → Nat
  | .node _ _ e _ => e

/-- Children of a node. -/
def JNode.children : JNode → List JNode
  | .node _ _ _ cs => cs

/-- Kind of a node. -/
def JNode.kind : JNode → NodeKind
  | .node k _ _ _ => k

/-- Whether the offset lies in the node's span: `[start, stop)` in exclusive
mode, `[start, stop]` in end-inclusive mode. -/
def nodeContains (incl : Bool) (n : JNode) (o : Nat) : Bool :=
  decide (n.start ≤ o) && (decide (o < n.stop) || (incl && o == n.stop))

mutual

/-- Modelled from the spec: offset-to-node resolution. Descend the tree,
selecting a child whose span contains the offset, before accepting the
current node — so the deepest matching node wins; `incl` selects the
end-inclusive mode. -/
def findNode (incl : Bool) (o : Nat) : JNode → Option JNode
  | .node k s e cs =>
    if nodeContains incl (.node k s e cs) o then
      some ((findInChildren incl o cs).getD (.node k s e cs))
    else none

/-- First child (in order) that resolves the offset. -/
def findInChildren (incl : Bool) (o : Nat) : List JNode → Option JNode
  | [] => none
  | c :: rest =>
    match findNode incl o c with
    | some r => some r
    | none => findInChildren incl o rest

end

mutual

/-- Spec invariant: every child's span lies within its parent's span,
recursively. -/
def wfSpans : JNode → Bool
  | .node _ s e cs => wfChildren s e cs

/-- `wfSpans` over a children list, against the parent bounds `[s, e)`. -/
def wfChildren (s e : Nat) : List JNode → Bool
  | [] => true
  | c :: rest => (decide (s ≤ c.start) && decide (c.stop ≤ e)) && wfSpans c && wfChildren s e rest

end

theorem findNode_none_iff (incl : Bool) (o : Nat) (n : JNode) :
    findNode incl o n = none ↔ nodeContains incl n o = false := by
  obtain ⟨k, s, e, cs⟩ := n
  rw [findNode]
  split
  · rename_i hc
    constructor
    · intro h; exact absurd h (by simp)
    · intro h; rw [h] at hc; exact absurd hc (by simp)
  · rename_i hc
    simp only [Bool.not_eq_true] at hc
    exact ⟨fun _ => hc, fun _ => rfl⟩

theorem nodeContains_mono {n : JNode} {o : Nat} (h : nodeContains false n o = true) :
    nodeContains true n o = true := by
  simp only [nodeContains, Bool.and_eq_true, Bool.or_eq_true] at h ⊢
  rcases h with ⟨h1, h2 | h3⟩
  · exact ⟨h1, Or.inl h2⟩
  · simp at h3

theorem findNode_none_mono {o : Nat} {n : JNode} (h : findNode true o n = none) :
    findNode false o n = none := by
  rw [findNode_none_iff] at h ⊢
  rcases hc : nodeContains false n o with _ | _
  · rfl
  · rw [nodeContains_mono hc] at h
    exact absurd h (by simp)

theorem findInChildren_none_mono {o : Nat} {cs : List JNode}
    (h : findInChildren true o cs = none) : findInChildren false o cs = none := by
  induction cs with
  | nil => rfl
  | cons c rest ih =>
    rw [findInChildren] at h ⊢
    rcases hc : findNode true o c with _ | r
    · rw [hc] at h
      rw [findNode_none_mono hc]
      exact ih h
    · rw [hc] at h
      exact absurd h (by simp)

theorem findInChildren_none_all {incl : Bool} {o : Nat} {cs : List JNode}
    (h : findInChildren incl o cs = none) : ∀ c ∈ cs, findNode incl o c = none := by
  induction cs with
  | nil => intro c hc; exact absurd hc (by simp)
  | cons c rest ih =>
    rw [findInChildren] at h
    rcases hc : findNode incl o c with _ | r
    · rw [hc] at h
      intro x hx
      rcases List.mem_cons.mp hx with rfl | hx'
      · exact hc
      · exact ih h x hx'
    · rw [hc] at h
      exact absurd h (by simp)

end YamlLS
namespace YamlLS

theorem findNode_contains (incl : Bool) (o : Nat) :
    ∀ n : JNode, ∀ m, findNode incl o n = some m → nodeContains incl m o = true := by
  apply findNode.induct incl o
    (fun n => ∀ m, findNode incl o n = some m → nodeContains incl m o = true)
    (fun cs => ∀ m, findInChildren incl o cs = some m → nodeContains incl m o = true)
  · intro k s e cs hc ih m hm
    rw [findNode, if_pos hc] at hm
    simp only [Option.some.injEq] at hm
    rcases hcs : findInChildren incl o cs with _ | r
    · rw [hcs] at hm
      simp only [Option.getD_none] at hm
      subst hm
      exact hc
    · rw [hcs] at hm
      simp only [Option.getD_some] at hm
      subst hm
      exact ih _ hcs
  · intro k s e cs hc m hm
    rw [findNode, if_neg hc] at hm
    exact absurd hm (by simp)
  · intro m hm
    rw [findInChildren] at hm
    exact absurd hm (by simp)
  · intro c rest r hr ihc m hm
    rw [findInChildren, hr] at hm
    simp only [Option.some.injEq] at hm
    subst hm
    exact ihc _ hr
  · intro c rest hnone ihc ihrest m hm
    rw [findInChildren, hnone] at hm
    exact ihrest m hm

theorem findNode_excl_lt {o : Nat} {n m : JNode} (h : findNode false o n = some m) :
    m.start ≤ o ∧ o < m.stop := by
  have hc := findNode_contains false o n m h
  simp only [nodeContains, Bool.and_eq_true, Bool.or_eq_true, decide_eq_true_eq] at hc
  rcases hc with ⟨h1, h2 | h3⟩
  · exact ⟨h1, h2⟩
  · simp at h3

theorem findNode_incl_le {o : Nat} {n m : JNode} (h : findNode true o n = some m) :
    m.start ≤ o ∧ o ≤ m.stop := by
  have hc := findNode_contains true o n m h
  simp only [nodeContains, Bool.and_eq_true, Bool.or_eq_true, decide_eq_true_eq,
    beq_iff_eq] at hc
  rcases hc with ⟨h1, h2 | h3⟩
  · exact ⟨h1, le_of_lt h2⟩
  · simp only [true_and] at h3
    omega

theorem findNode_deepest (incl : Bool) (o : Nat) :
    ∀ n : JNode, ∀ m, findNode incl o n = some m →
      ∀ c ∈ m.children, findNode incl o c = none := by
  apply findNode.induct incl o
    (fun n => ∀ m, findNode incl o n = some m → ∀ c ∈ m.children, findNode incl o c = none)
    (fun cs => ∀ m, findInChildren incl o cs = some m → ∀ c ∈ m.children, findNode incl o c = none)
  · intro k s e cs hc ih m hm
    rw [findNode, if_pos hc] at hm
    simp only [Option.some.injEq] at hm
    rcases hcs : findInChildren incl o cs with _ | r
    · rw [hcs] at hm
      simp only [Option.getD_none] at hm
      subst hm
      exact findInChildren_none_all hcs
    · rw [hcs] at hm
      simp only [Option.getD_some] at hm
      subst hm
      exact ih _ hcs
  · intro k s e cs hc m hm
    rw [findNode, if_neg hc] at hm
    exact absurd hm (by simp)
  · intro m hm
    rw [findInChildren] at hm
    exact absurd hm (by simp)
  · intro c rest r hr ihc m hm
    rw [findInChildren, hr] at hm
    simp only [Option.some.injEq] at hm
    subst hm
    exact ihc _ hr
  · intro c rest hnone ihc ihrest m hm
    rw [findInChildren, hnone] at hm
    exact ihrest m hm

theorem findNode_span (incl : Bool) (o : Nat) :
    ∀ n : JNode, wfSpans n = true → ∀ m, findNode incl o n = some m →
      n.start ≤ m.start ∧ m.stop ≤ n.stop := by
  apply findNode.induct incl o
    (fun n => wfSpans n = true → ∀ m, findNode incl o n = some m →
      n.start ≤ m.start ∧ m.stop ≤ n.stop)
    (fun cs => ∀ s e, wfChildren s e cs = true → ∀ m, findInChildren incl o cs = some m →
      s ≤ m.start ∧ m.stop ≤ e)
  · intro k s e cs hc ih hwf m hm
    rw [findNode, if_pos hc] at hm
    simp only [Option.some.injEq] at hm
    rcases hcs : findInChildren incl o cs with _ | r
    · rw [hcs] at hm
      simp only [Option.getD_none] at hm
      subst hm
      exact ⟨le_refl _, le_refl _⟩
    · rw [hcs] at hm
      simp only [Option.getD_some] at hm
      subst hm
      have hwf' : wfChildren s e cs = true := by simpa [wfSpans] using hwf
      exact ih s e hwf' _ hcs
  · intro k s e cs hc hwf m hm
    rw [findNode, if_neg hc] at hm
    exact absurd hm (by simp)
  · intro s e hwf m hm
    rw [findInChildren] at hm
    exact absurd hm (by simp)
  · intro c rest r hr ihc s e hwf m hm
    rw [findInChildren, hr] at hm
    simp only [Option.some.injEq] at hm
    subst hm
    simp only [wfChildren, Bool.and_eq_true, decide_eq_true_eq] at hwf
    obtain ⟨⟨⟨hs, he⟩, hwfc⟩, _⟩ := hwf
    obtain ⟨h1, h2⟩ := ihc hwfc _ hr
    exact ⟨le_trans hs h1, le_trans h2 he⟩
  · intro c rest hnone ihc ihrest s e hwf m hm
    rw [findInChildren, hnone] at hm
    simp only [wfChildren, Bool.and_eq_true, decide_eq_true_eq] at hwf
    exact ihrest s e hwf.2 m hm

theorem findInChildren_span {incl : Bool} {o s e : Nat} {cs : List JNode}
    (hwf : wfChildren s e cs = true) {m : JNode} (hm : findInChildren incl o cs = some m) :
    s ≤ m.start ∧ m.stop ≤ e := by
  induction cs with
  | nil =>
    rw [findInChildren] at hm
    exact absurd hm (by simp)
  | cons c rest ih =>
    simp only [wfChildren, Bool.and_eq_true, decide_eq_true_eq] at hwf
    obtain ⟨⟨⟨hs, he⟩, hwfc⟩, hwfr⟩ := hwf
    rw [findInChildren] at hm
    rcases hc : findNode incl o c with _ | r
    · rw [hc] at hm
      exact ih hwfr hm
    · rw [hc] at hm
      simp only [Option.some.injEq] at hm
      subst hm
      obtain ⟨h1, h2⟩ := findNode_span incl o c hwfc _ hc
      exact ⟨le_trans hs h1, le_trans h2 he⟩

theorem findNode_agree (o : Nat) :
    ∀ n : JNode, wfSpans n = true → ∀ m, findNode true o n = some m → o < m.stop →
      findNode false o n = some m := by
  apply findNode.induct true o
    (fun n => wfSpans n = true → ∀ m, findNode true o n = some m → o < m.stop →
      findNode false o n = some m)
    (fun cs => ∀ s e, wfChildren s e cs = true → ∀ m, findInChildren true o cs = some m →
      o < m.stop → findInChildren false o cs = some m)
  · intro k s e cs hc ih hwf m hm hlt
    rw [findNode, if_pos hc] at hm
    simp only [Option.some.injEq] at hm
    have hwf' : wfChildren s e cs = true := by simpa [wfSpans] using hwf
    have hso : s ≤ o := by
      simp only [nodeContains, Bool.and_eq_true, decide_eq_true_eq] at hc
      exact hc.1
    rcases hcs : findInChildren true o cs with _ | r
    · rw [hcs] at hm
      simp only [Option.getD_none] at hm
      subst hm
      have hoe : o < (JNode.node k s e cs).stop := hlt
      have hcf : nodeContains false (JNode.node k s e cs) o = true := by
        simp only [nodeContains, Bool.and_eq_true, Bool.or_eq_true, decide_eq_true_eq]
        exact ⟨hso, Or.inl hoe⟩
      rw [findNode, if_pos hcf, findInChildren_none_mono hcs]
      rfl
    · rw [hcs] at hm
      simp only [Option.getD_some] at hm
      subst hm
      have hspan := findInChildren_span hwf' hcs
      have hcf : nodeContains false (JNode.node k s e cs) o = true := by
        simp only [nodeContains, Bool.and_eq_true, Bool.or_eq_true, decide_eq_true_eq]
        refine ⟨hso, Or.inl ?_⟩
        show o < e
        omega
      rw [findNode, if_pos hcf, ih s e hwf' _ hcs hlt]
      rfl
  · intro k s e cs hc hwf m hm
    rw [findNode, if_neg hc] at hm
    exact absurd hm (by simp)
  · intro s e hwf m hm
    rw [findInChildren] at hm
    exact absurd hm (by simp)
  · intro c rest r hr ihc s e hwf m hm hlt
    simp only [wfChildren, Bool.and_eq_true, decide_eq_true_eq] at hwf
    obtain ⟨⟨_, hwfc⟩, _⟩ := hwf
    rw [findInChildren, hr] at hm
    simp only [Option.some.injEq] at hm
    subst hm
    have := ihc hwfc _ hr hlt
    rw [findInChildren, this]
  · intro c rest hnone ihc ihrest s e hwf m hm hlt
    simp only [wfChildren, Bool.and_eq_true, decide_eq_true_eq] at hwf
    rw [findInChildren, hnone] at hm
    rw [findInChildren, findNode_none_mono hnone]
    exact ihrest s e hwf.2 m hm hlt

end YamlLS
namespace YamlLS

/-- The key node of the illustration tree (`outer`, span `[0, 5)`). -/
def exKey : JNode := .node .stringK 0 5 []

/-- The value node of the illustration tree (the inner object). -/
def exValue : JNode := .node .objectK 10 17 []

/-- The property node of the illustration tree, ending at offset 21 (as the
inner property of `outer:\n  inner:\n    ` does). -/
def exProp : JNode := .node .propertyK 0 21 [exKey, exValue]

/-- The root object of the illustration tree. -/
def exRoot : JNode := .node .objectK 0 22 [exProp]

/-- C5: both offset-lookup modes resolve to the deepest matching node, the
exclusive mode only ever returns a node whose half-open span strictly
contains the offset, for an offset strictly inside the resolved node the two
modes agree, any disagreement happens exactly at the resolved node's end
offset, and — illustrated on the `outer`/`inner` example — at the offset
equal to the property's span end the end-inclusive mode still returns that
property while the exclusive mode returns its parent. -/
theorem getNodeFromOffset_modes :
    (∀ (incl : Bool) (o : Nat) (n m : JNode), findNode incl o n = some m →
      ∀ c ∈ m.children, findNode incl o c = none) ∧
    (∀ (o : Nat) (n m : JNode), findNode false o n = some m → m.start ≤ o ∧ o < m.stop) ∧
    (∀ (o : Nat) (n m : JNode), wfSpans n = true → findNode true o n = some m → o < m.stop →
      findNode false o n = some m) ∧
    (∀ (o : Nat) (n m nf : JNode), wfSpans n = true → findNode true o n = some m →
      findNode false o n = some nf → nf ≠ m → o = m.stop) ∧
    (findNode true 21 exRoot = some exProp ∧ findNode false 21 exRoot = some exRoot ∧
      exRoot.children = [exProp] ∧ exProp.stop = 21) := by
  refine ⟨?_, ?_, ?_, ?_, ?_, ?_, ?_, ?_⟩
  · exact fun incl o n m h => findNode_deepest incl o n m h
  · exact fun o n m h => findNode_excl_lt h
  · exact fun o n m hwf h hlt => findNode_agree o n hwf m h hlt
  · intro o n m nf hwf hi he hne
    have hle := (findNode_incl_le hi).2
    rcases Nat.lt_or_ge o m.stop with hlt | hge
    · have := findNode_agree o n hwf m hi hlt
      rw [this] at he
      simp only [Option.some.injEq] at he
      exact absurd he.symm hne
    · omega
  · show findNode true 21 exRoot = some exProp
    simp [findNode, findInChildren, nodeContains, exRoot, exProp, exKey, exValue,
      JNode.start, JNode.stop]
  · show findNode false 21 exRoot = some exRoot
    simp [findNode, findInChildren, nodeContains, exRoot, exProp, exKey, exValue,
      JNode.start, JNode.stop]
  · rfl
  · rfl

/-- C5 witness: the general parts applied on the concrete illustration tree —
strictly inside the key's span both modes return the key node, and at the
property's end the divergence theorem reports the end offset. -/
theorem getNodeFromOffset_modes_witness :
    findNode false 3 exRoot = some exKey ∧ (21 : Nat) = exProp.stop := by
  constructor
  · refine getNodeFromOffset_modes.2.2.1 3 exRoot exKey ?_ ?_ ?_
    · decide
    · simp [findNode, findInChildren, nodeContains, exRoot, exProp, exKey, exValue,
        JNode.start, JNode.stop]
    · decide
  · refine getNodeFromOffset_modes.2.2.2.1 21 exRoot exProp exRoot ?_ ?_ ?_ ?_
    · decide
    · exact getNodeFromOffset_modes.2.2.2.2.1
    · exact getNodeFromOffset_modes.2.2.2.2.2.1
    · intro h
      exact absurd (congrArg JNode.stop h) (by decide)

end YamlLS
